import Mathlib

/-!
SSVM: linear memory instance and instruction decoding.

A shallow embedding of `include/runtime/instance/memory.h` (class
`MemoryInstance`) and of the instruction decoder exercised by
`test/ast/instructionTest.cpp`.

Machine integers are natural numbers; every place where the C++ code computes
in a fixed width carries an explicit reduction modulo `2^32` or `2^64`.
The host is little-endian (the code targets Linux with `mmap`), so `memcpy`
between an integer object and the byte region is a little-endian conversion.
-/

namespace SSVM

/-! ## Machine words and bytes -/

/-- One byte of the region (`uint8_t`). -/
abbrev Byte := Fin 256

/-- Number of values of a `uint32_t`. -/
def U32 : Nat := 4294967296

/-- Number of values of a `uint64_t`. -/
def U64 : Nat := 18446744073709551616

/-- Build a byte from the low eight bits of a number. -/
def toByte (n : Nat) : Byte := ⟨n % 256, Nat.mod_lt n (by decide)⟩

/-! ## MemoryInstance -/

namespace MemoryInstance

/-- Constant `kPageSize = UINT64_C(65536)`. -/
def kPageSize : Nat := 65536

/-- Constant `k4G = UINT64_C(0x100000000)`. -/
def k4G : Nat := 0x100000000

/-- Constant `k8G = UINT64_C(0x200000000)`. -/
def k8G : Nat := 0x200000000

end MemoryInstance

/-- Error codes returned by the accessors (`ErrCode`); the memory accessors
only ever produce `MemoryOutOfBounds`. -/
inductive ErrCode where
  | MemoryOutOfBounds
  deriving DecidableEq, Repr

deriving instance DecidableEq for Except

/-- Limit descriptor `AST::Limit` handed to the constructor. -/
structure Limit where
  hasMax : Bool
  min : Nat
  max : Nat

/-- Private data of `MemoryInstance`.  `DataPtr` is the base address returned
by `mmap`; `Data` is the content of the reserved span, indexed by the byte
offset from `DataPtr`.  The access permissions set by `mprotect` are not part
of the state: no accessor consults them, they only follow `CurrPage`.
`Symbol` is the external cell registered by `setSymbol` (`none` is the initial
`nullptr`). -/
structure MemoryInstance where
  HasMaxPage : Bool
  MinPage : Nat
  MaxPage : Nat
  DataPtr : Nat
  Data : Nat → Byte
  CurrPage : Nat
  Symbol : Option Nat := none

namespace MemoryInstance

/-- The three page counts are `uint32_t` objects. -/
def WF (m : MemoryInstance) : Prop :=
  m.MinPage < U32 ∧ m.MaxPage < U32 ∧ m.CurrPage < U32

instance (m : MemoryInstance) : Decidable m.WF := by
  unfold WF; exact inferInstance

/-- Constructor `MemoryInstance(const AST::Limit &Lim)`: the fields are
initialised from the limit, `Pages` is the address and initial content that
`mmap` hands back. -/
def mk0 (Lim : Limit) (Pages : Nat) (content : Nat → Byte) : MemoryInstance :=
  { HasMaxPage := Lim.hasMax, MinPage := Lim.min, MaxPage := Lim.max,
    DataPtr := Pages, Data := content, CurrPage := Lim.min }

/-- Method `getDataPageSize()`. -/
def getDataPageSize (m : MemoryInstance) : Nat := m.CurrPage

/-- Method `checkAccessBound(Offset, Length)`: both operands are widened to
`uint64_t` before the addition, and `CurrPage * kPageSize` is a `uint64_t`
product. -/
def checkAccessBound (m : MemoryInstance) (Offset Length : Nat) : Bool :=
  let AccessLen := (Offset % U64 + Length % U64) % U64
  decide (AccessLen ≤ (m.CurrPage * kPageSize) % U64)

/-- Method `growPage(Count)`: returns the boolean result and the state after
the call.  `MaxPageCaped` and the sum `Count + CurrPage` are `uint32_t`
values, and so is the updated `CurrPage`. -/
def growPage (m : MemoryInstance) (Count : Nat) : Bool × MemoryInstance :=
  let MaxPageCaped0 := (k4G / kPageSize) % U32
  let MaxPageCaped := if m.HasMaxPage then min m.MaxPage MaxPageCaped0 else MaxPageCaped0
  if (Count + m.CurrPage) % U32 > MaxPageCaped then
    (false, m)
  else
    (true, { m with CurrPage := (m.CurrPage + Count) % U32 })

/-- The effective cap of the spec: `min(MaxPage, 65536)` when a maximum is
declared, `65536` otherwise. -/
def effectiveCap (m : MemoryInstance) : Nat :=
  if m.HasMaxPage then min m.MaxPage 65536 else 65536

end MemoryInstance

/-- A `Span<Byte>`: a view of `size` bytes starting `start` bytes after the
base of the region (`&DataPtr[start]`). -/
structure Span where
  start : Nat
  size : Nat
  deriving DecidableEq, Repr

/-- The bytes a span denotes in a given memory. -/
def Span.bytes (s : Span) (m : MemoryInstance) : List Byte :=
  (List.range s.size).map (fun i => m.Data (s.start + i))

namespace MemoryInstance

/-- Method `getBytes(Offset, Length)`. -/
def getBytes (m : MemoryInstance) (Offset Length : Nat) : Except ErrCode Span :=
  if !checkAccessBound m Offset Length then
    .error ErrCode.MemoryOutOfBounds
  else
    .ok { start := Offset, size := Length }

end MemoryInstance

/-! ## Typed loads and stores -/

/-- The types accepted by `loadValue` (`Support::IsWasmTypeV`). -/
inductive WasmType where
  | i32 | u32 | i64 | u64 | f32 | f64
  deriving DecidableEq, Repr

namespace WasmType

/-- Value of `sizeof(T)`. -/
def sizeof : WasmType → Nat
  | i32 => 4 | u32 => 4 | i64 => 8 | u64 => 8 | f32 => 4 | f64 => 8

/-- Trait `std::is_floating_point_v<T>`. -/
def isFloat : WasmType → Bool
  | f32 => true | f64 => true | _ => false

/-- Trait `std::is_signed_v<T>` (true for the floating types as well). -/
def isSigned : WasmType → Bool
  | i32 => true | i64 => true | f32 => true | f64 => true | _ => false

/-- Trait `Support::IsWasmBuiltInV<T>`, the types `storeValue` accepts: per its
documentation "only input value of uint32, uint64, float, and double". -/
def IsWasmBuiltInV : WasmType → Bool
  | u32 => true | u64 => true | f32 => true | f64 => true | _ => false

/-- Number of object representations of `T`. -/
def card (T : WasmType) : Nat := 2 ^ (8 * T.sizeof)

/-- The integer a bit pattern of an integer type `T` stands for. -/
def asInt (T : WasmType) (bits : Nat) : Int :=
  if T.isSigned && decide (T.card ≤ 2 * bits) then (bits : Int) - (T.card : Int) else (bits : Int)

end WasmType

/-- Little-endian number held in the `n` bytes of `Data` from `off` on: what
`memcpy` into a zeroed integer object yields. -/
def leValue (Data : Nat → Byte) (off : Nat) : Nat → Nat
  | 0 => 0
  | n + 1 => (Data off).val + 256 * leValue Data (off + 1) n

/-- Region content after `memcpy(&DataPtr[off], &Value, n)`: byte `off + k`
receives bits `8k .. 8k+7` of `Value`. -/
def writeLE (Data : Nat → Byte) (off : Nat) (Value : Nat) (n : Nat) : Nat → Byte :=
  fun i => if off ≤ i ∧ i < off + n then toByte (Value / 256 ^ (i - off)) else Data i

/-- The sign-extension loop of `loadValue`:
`for (I = Length; I < 8; I++) LoadVal |= 0xFFULL << (I * 8);`. -/
def signExtend (LoadVal Length : Nat) : Nat :=
  (List.range' Length (8 - Length)).foldl
    (fun acc I => acc ||| ((0xFF <<< (I * 8)) % U64)) LoadVal

namespace MemoryInstance

/-- Method `loadValue<T>(Value, Offset, Length)`.  `Value` is the bit pattern
the output object holds before the call; the result is the bit pattern it
holds afterwards. -/
def loadValue (m : MemoryInstance) (T : WasmType) (Value Offset Length : Nat) :
    Except ErrCode Nat :=
  if Length > T.sizeof then
    .error ErrCode.MemoryOutOfBounds
  else if !checkAccessBound m Offset Length then
    .error ErrCode.MemoryOutOfBounds
  else if Length > 0 then
    if T.isFloat then
      .ok (leValue m.Data Offset T.sizeof)
    else
      let LoadVal := leValue m.Data Offset Length
      let LoadVal :=
        if T.isSigned && (LoadVal >>> ((Length * 8 - 1) % U32) != 0) then
          signExtend LoadVal Length
        else LoadVal
      .ok (LoadVal % T.card)
  else
    .ok Value

/-- Method `storeValue<T>(Value, Offset, Length)`: the state after the call. -/
def storeValue (m : MemoryInstance) (T : WasmType) (Value Offset Length : Nat) :
    Except ErrCode MemoryInstance :=
  if Length > T.sizeof then
    .error ErrCode.MemoryOutOfBounds
  else if !checkAccessBound m Offset Length then
    .error ErrCode.MemoryOutOfBounds
  else if Length > 0 then
    .ok { m with Data := writeLE m.Data Offset Value Length }
  else
    .ok m

end MemoryInstance

/-! ## Byte ranges, arrays and raw pointers -/

/-- The object an accessor leaves behind: the new one when the call succeeded,
the old one when it returned an error (every error path of the accessors
returns before the first write). -/
def after {α : Type} (r : Except ErrCode α) (old : α) : α :=
  match r with
  | .ok x => x
  | .error _ => old

namespace MemoryInstance

/-- The source indices `Slice.begin() + Start + k`, `k < Length`, that the copy
of `setBytes` reads. -/
def setBytesSrc (Start Length : Nat) : List Nat := List.range' Start Length

/-- Method `setBytes(Slice, Offset, Start, Length)`: the state after the call.
`Start + Length` is a `uint32_t` sum, compared with the `size_t` size of the
slice.  A source index outside the slice is an out-of-bounds read in C++; the
model reads `0` there, and `setBytesSrc` lists the indices that are read. -/
def setBytes (m : MemoryInstance) (Slice : List Byte) (Offset Start Length : Nat) :
    Except ErrCode MemoryInstance :=
  if !checkAccessBound m Offset Length then
    .error ErrCode.MemoryOutOfBounds
  else if (decide (Slice.length > 0) && decide (Start ≥ Slice.length)) ||
      decide ((Start + Length) % U32 > Slice.length) then
    .error ErrCode.MemoryOutOfBounds
  else if Length > 0 then
    .ok { m with Data := fun i =>
            if Offset ≤ i ∧ i < Offset + Length then Slice.getD (Start + (i - Offset)) 0
            else m.Data i }
  else
    .ok m

/-- Method `getArray(Arr, Offset, Length, IsReverse)`: the content of the
caller's buffer `Arr` after the call (`Arr i` is the byte `Arr[i]`). -/
def getArray (m : MemoryInstance) (Arr : Nat → Byte) (Offset Length : Nat) (IsReverse : Bool) :
    Except ErrCode (Nat → Byte) :=
  if !checkAccessBound m Offset Length then
    .error ErrCode.MemoryOutOfBounds
  else if Length > 0 then
    if IsReverse then
      .ok (fun i => if i < Length then m.Data (Offset + (Length - 1 - i)) else Arr i)
    else
      .ok (fun i => if i < Length then m.Data (Offset + i) else Arr i)
  else
    .ok Arr

/-- Method `setArray(Arr, Offset, Length, IsReverse)`: the state after the
call. -/
def setArray (m : MemoryInstance) (Arr : Nat → Byte) (Offset Length : Nat) (IsReverse : Bool) :
    Except ErrCode MemoryInstance :=
  if !checkAccessBound m Offset Length then
    .error ErrCode.MemoryOutOfBounds
  else if Length > 0 then
    if IsReverse then
      .ok { m with Data := fun i =>
              if Offset ≤ i ∧ i < Offset + Length then Arr (Length - 1 - (i - Offset))
              else m.Data i }
    else
      .ok { m with Data := fun i =>
              if Offset ≤ i ∧ i < Offset + Length then Arr (i - Offset) else m.Data i }
  else
    .ok m

/-- The region indices that the `memcpy` of `loadValue<T>` reads: `sizeof(T)`
bytes from `Offset` on for a floating type, `Length` bytes for an integer type,
and none when a check fails or `Length` is 0. -/
def loadValueReads (m : MemoryInstance) (T : WasmType) (Offset Length : Nat) : List Nat :=
  if Length > T.sizeof then
    []
  else if !checkAccessBound m Offset Length then
    []
  else if Length > 0 then
    if T.isFloat then List.range' Offset T.sizeof else List.range' Offset Length
  else
    []

/-- Method `getPointerOrNull<T*>(Offset)`; `sizeofT` is `sizeof(T)` of the
element type, a `size_t` handed to the `uint32_t` parameter `Length`.  `none`
is the null pointer. -/
def getPointerOrNull (m : MemoryInstance) (sizeofT Offset : Nat) : Option Nat :=
  if Offset = 0 ∨ !checkAccessBound m Offset ((sizeofT % U64) % U32) then
    none
  else
    some (m.DataPtr + Offset)

/-- Method `getPointer<T*>(Offset, Size)`: `ByteSize` is a `size_t` product,
handed to the `uint32_t` parameter `Length` of `checkAccessBound`.  `none` is
the null pointer. -/
def getPointer (m : MemoryInstance) (sizeofT Offset Size : Nat) : Option Nat :=
  let ByteSize := (sizeofT * Size) % U64
  if !checkAccessBound m Offset (ByteSize % U32) then
    none
  else
    some (m.DataPtr + Offset)

/-- Method `getSymbol()`. -/
def getSymbol (m : MemoryInstance) : Option Nat := m.Symbol

/-- Method `setSymbol(S)`: registers the cell `S` and writes the base address
to it; the result is the state and the value now held by `*S`. -/
def setSymbol (m : MemoryInstance) (S : Nat) : MemoryInstance × Nat :=
  ({ m with Symbol := some S }, m.DataPtr)

/-- The states a memory built from the limit `Lim` can be in: the state the
constructor leaves, and every state after one more `growPage` call with a
32-bit count. -/
inductive Reachable (Lim : Limit) : MemoryInstance → Prop where
  | init (Pages : Nat) (content : Nat → Byte) : Reachable Lim (mk0 Lim Pages content)
  | grow (m : MemoryInstance) (Count : Nat) :
      Reachable Lim m → Count < U32 → Reachable Lim (growPage m Count).2

end MemoryInstance

/-- The integer that the low `bits` bits of `x`, read as a two's-complement
number, stand for (`x < 2 ^ bits`). -/
def twosComplement (bits : Nat) (x : Nat) : Int :=
  if 2 ^ bits ≤ 2 * x then (x : Int) - ((2 ^ bits : Nat) : Int) else (x : Int)

/-! ## Instruction decoder -/

/-- Modelled from the spec: the failure taxonomy of section 7 for the decoder
(`common/errcode.h` is absent).  `OutOfFuel` is not a decoder error: it marks a
recursion bound that was too small, and the entry points never return it. -/
inductive DecodeError where
  | Truncated
  | InvalidOpcode
  | IntegerRepresentationTooLong
  | MalformedSentinel
  | OutOfFuel
  deriving DecidableEq, Repr

/-- Modelled from the spec: the ByteCursor of section 4.1 (`loader/filemgr.h`
is absent), represented by the bytes not yet read; `remaining()` is the length
of the list and a read of `k` bytes drops the first `k` bytes. -/
abbrev ByteCursor := List Byte

/-- Result of a read: the value and the advanced cursor, or a failure. -/
abbrev Read (α : Type) := Except DecodeError (α × ByteCursor)

namespace ByteCursor

/-- Modelled from the spec: `remaining()` of section 4.1, the unread byte count. -/
def getRemainSize (c : ByteCursor) : Nat := c.length

/-- Modelled from the spec: `readByte` of section 4.1; fails with Truncated
when no byte remains. -/
def readByte : ByteCursor → Read Byte
  | [] => .error .Truncated
  | b :: rest => .ok (b, rest)

/-- Modelled from the spec: the continuation groups of a base-128 varint
(section 4.1), least significant first.  At most `groups` bytes are read; a
byte below `0x80` ends the number; Truncated when the bytes run out, the
overflow error when `groups` groups all carry the continuation bit. -/
def readGroups : Nat → ByteCursor → Read (List Nat)
  | 0, _ => .error .IntegerRepresentationTooLong
  | _ + 1, [] => .error .Truncated
  | g + 1, b :: rest =>
    if b.val < 128 then .ok ([b.val], rest)
    else
      match readGroups g rest with
      | .error e => .error e
      | .ok (gs, rest') => .ok ((b.val % 128) :: gs, rest')

/-- Little-endian base-128 number of a list of 7-bit groups. -/
def groupsValue : List Nat → Nat
  | [] => 0
  | g :: gs => g + 128 * groupsValue gs

/-- Number of 7-bit groups that fit `maxBits` bits (5 for 32, 10 for 64). -/
def maxGroups (maxBits : Nat) : Nat := (maxBits + 6) / 7

/-- Modelled from the spec: `readUnsignedVarint(maxBits)` of section 4.1; the
number is held in a `maxBits`-wide unsigned integer. -/
def readUnsignedVarint (maxBits : Nat) (c : ByteCursor) : Read Nat :=
  match readGroups (maxGroups maxBits) c with
  | .error e => .error e
  | .ok (gs, rest) => .ok (groupsValue gs % 2 ^ maxBits, rest)

/-- Wrap an integer into the range of a `bits`-wide two's-complement integer. -/
def wrapSigned (bits : Nat) (v : Int) : Int :=
  (v + 2 ^ (bits - 1)) % 2 ^ bits - 2 ^ (bits - 1)

/-- Modelled from the spec: `readSignedVarint(maxBits)` of section 4.1; the
sign is bit 6 of the final group, and the number is held in a `maxBits`-wide
signed integer. -/
def readSignedVarint (maxBits : Nat) (c : ByteCursor) : Read Int :=
  match readGroups (maxGroups maxBits) c with
  | .error e => .error e
  | .ok (gs, rest) =>
    let raw : Int := (groupsValue gs : Int)
    let v : Int := if 64 ≤ gs.getLastD 0 then raw - 128 ^ gs.length else raw
    .ok (wrapSigned maxBits v, rest)

/-- Little-endian number of a list of bytes. -/
def bytesValue : List Byte → Nat
  | [] => 0
  | b :: bs => b.val + 256 * bytesValue bs

/-- Modelled from the spec: `readRawLittleEndian(width)` of section 4.1, the
bit pattern of the next `width` bytes; Truncated when fewer remain. -/
def readRawLittleEndian (width : Nat) (c : ByteCursor) : Read Nat :=
  if c.length < width then .error .Truncated
  else .ok (bytesValue (c.take width), c.drop width)

/-- Decode `n` elements one after the other. -/
def readElems {α : Type} (decodeElem : ByteCursor → Read α) : Nat → ByteCursor → Read (List α)
  | 0, c => .ok ([], c)
  | n + 1, c =>
    match decodeElem c with
    | .error e => .error e
    | .ok (x, c1) =>
      match readElems decodeElem n c1 with
      | .error e => .error e
      | .ok (xs, c2) => .ok (x :: xs, c2)

/-- Modelled from the spec: `readVectorPrefixed(decodeElem)` of section 4.1:
an unsigned-varint count, then that many elements. -/
def readVectorPrefixed {α : Type} (decodeElem : ByteCursor → Read α) (c : ByteCursor) :
    Read (List α) :=
  match readUnsignedVarint 32 c with
  | .error e => .error e
  | .ok (n, c1) => readElems decodeElem n c1

end ByteCursor

/-- Modelled from the spec: the categories of the OpcodeClassifier (section
4.2).  `Plain` is the class of opcodes without immediate fields, which the
spec's end-to-end property decodes into field-less children (`0x45`, `0x46`,
`0x47`); `Invalid` is every byte outside the recognised set. -/
inductive OpCategory where
  | ControlBlock | ControlIfElse | ControlBr | ControlBrTable
  | ControlCall | ControlCallIndirect | ControlElse | ControlEnd
  | Variable | MemoryAccess | MemorySizeGrow | Const | Plain | Invalid
  deriving DecidableEq, Repr

/-- Modelled from the spec: the OpcodeClassifier of section 4.2 (the opcode
table of `common/ast/instruction.h` is absent).  The spec fixes End = `0x0B`,
Else = `0x05`, the range `0xED`-`0xEF` as invalid and `0x45`-`0x47` as valid
immediate-free opcodes; the other bytes are classified as in the WebAssembly
1.0 binary format the spec describes. -/
def classify (op : Byte) : OpCategory :=
  let b := op.val
  if b = 0x02 ∨ b = 0x03 then .ControlBlock
  else if b = 0x04 then .ControlIfElse
  else if b = 0x05 then .ControlElse
  else if b = 0x0B then .ControlEnd
  else if b = 0x0C ∨ b = 0x0D then .ControlBr
  else if b = 0x0E then .ControlBrTable
  else if b = 0x10 then .ControlCall
  else if b = 0x11 then .ControlCallIndirect
  else if 0x20 ≤ b ∧ b ≤ 0x24 then .Variable
  else if 0x28 ≤ b ∧ b ≤ 0x3E then .MemoryAccess
  else if b = 0x3F ∨ b = 0x40 then .MemorySizeGrow
  else if 0x41 ≤ b ∧ b ≤ 0x44 then .Const
  else if b = 0x00 ∨ b = 0x01 ∨ b = 0x0F ∨ b = 0x1A ∨ b = 0x1B ∨ (0x45 ≤ b ∧ b ≤ 0xBF) then .Plain
  else .Invalid

/-- Modelled from the spec: the block-type descriptor of section 3, "empty or
indexed function type"; the byte `0x40` is the empty block type. -/
inductive BlockType where
  | empty
  | indexed (b : Byte)
  deriving DecidableEq, Repr

/-- Descriptor of a block-type byte. -/
def BlockType.ofByte (b : Byte) : BlockType :=
  if b.val = 0x40 then .empty else .indexed b

/-- Modelled from the spec: the Instruction variant of section 3, one case per
opcode category, each with the fields its encoding defines. -/
inductive Instruction where
  | plain (Code : Byte)
  | block (Code : Byte) (BlockType : BlockType) (Body : List Instruction)
  | ifElse (Code : Byte) (BlockType : BlockType) (IfStatement ElseStatement : List Instruction)
  | br (Code : Byte) (LabelIdx : Nat)
  | brTable (Code : Byte) (LabelTable : List Nat) (LabelIdx : Nat)
  | call (Code : Byte) (FuncIdx : Nat)
  | callIndirect (Code : Byte) (TypeIdx : Nat) (Reserved : Byte)
  | variable (Code : Byte) (Idx : Nat)
  | memory (Code : Byte) (Align Offset : Nat)
  | memorySizeGrow (Code : Byte) (Reserved : Byte)
  | constInt (Code : Byte) (Value : Int)
  | constFloat (Code : Byte) (Bits : Nat)

/-- Which terminator ended a sequence (section 4.4). -/
inductive Terminator where
  | End | Else
  deriving DecidableEq, Repr

/-- Result of decoding a sequence: the instructions, the terminator hit and
the advanced cursor. -/
abbrev SeqResult := Read (List Instruction × Terminator)

open ByteCursor

namespace BlockControlInstruction
/-- Modelled from the spec: Block / Loop row of section 4.3: one block-type
byte, then the child sequence until the matching End. -/
def load (seq : Bool → ByteCursor → SeqResult) (Code : Byte) (Mgr : ByteCursor) :
    Read Instruction :=
  match readByte Mgr with
  | .error e => .error e
  | .ok (bt, c1) =>
    match seq false c1 with
    | .error e => .error e
    | .ok ((body, _), c2) => .ok (.block Code (BlockType.ofByte bt) body, c2)
end BlockControlInstruction

namespace IfElseControlInstruction
/-- Modelled from the spec: If row of section 4.3: one block-type byte, the
`then`-sequence until End or Else, and after an Else the `else`-sequence until
End. -/
def load (seq : Bool → ByteCursor → SeqResult) (Code : Byte) (Mgr : ByteCursor) :
    Read Instruction :=
  match readByte Mgr with
  | .error e => .error e
  | .ok (bt, c1) =>
    match seq true c1 with
    | .error e => .error e
    | .ok ((thenB, .End), c2) => .ok (.ifElse Code (BlockType.ofByte bt) thenB [], c2)
    | .ok ((thenB, .Else), c2) =>
      match seq false c2 with
      | .error e => .error e
      | .ok ((elseB, _), c3) => .ok (.ifElse Code (BlockType.ofByte bt) thenB elseB, c3)
end IfElseControlInstruction

namespace BrControlInstruction
/-- Modelled from the spec: Br / BrIf row of section 4.3: one unsigned label
index. -/
def loadBinary (Code : Byte) (Mgr : ByteCursor) : Read Instruction :=
  match readUnsignedVarint 32 Mgr with
  | .error e => .error e
  | .ok (l, c1) => .ok (.br Code l, c1)
end BrControlInstruction

namespace BrTableControlInstruction
/-- Modelled from the spec: BrTable row of section 4.3: a count-prefixed vector
of unsigned label indices, then one mandatory default label index. -/
def loadBinary (Code : Byte) (Mgr : ByteCursor) : Read Instruction :=
  match readVectorPrefixed (readUnsignedVarint 32) Mgr with
  | .error e => .error e
  | .ok (table, c1) =>
    match readUnsignedVarint 32 c1 with
    | .error e => .error e
    | .ok (l, c2) => .ok (.brTable Code table l, c2)
end BrTableControlInstruction

namespace CallControlInstruction
/-- Modelled from the spec: Call and CallIndirect rows of section 4.3: one
unsigned index, for CallIndirect followed by one reserved byte whose value
decode does not constrain. -/
def loadBinary (Code : Byte) (Mgr : ByteCursor) : Read Instruction :=
  match readUnsignedVarint 32 Mgr with
  | .error e => .error e
  | .ok (idx, c1) =>
    if classify Code = .ControlCallIndirect then
      match readByte c1 with
      | .error e => .error e
      | .ok (r, c2) => .ok (.callIndirect Code idx r, c2)
    else .ok (.call Code idx, c1)
end CallControlInstruction

namespace VariableInstruction
/-- Modelled from the spec: Variable row of section 4.3: one unsigned index. -/
def loadBinary (Code : Byte) (Mgr : ByteCursor) : Read Instruction :=
  match readUnsignedVarint 32 Mgr with
  | .error e => .error e
  | .ok (idx, c1) => .ok (.variable Code idx, c1)
end VariableInstruction

namespace MemoryInstruction
/-- Modelled from the spec: the memory rows of section 4.3: MemorySize and
MemoryGrow read one reserved byte that must be `0x00`; loads and stores read an
unsigned alignment and an unsigned offset. -/
def loadBinary (Code : Byte) (Mgr : ByteCursor) : Read Instruction :=
  if classify Code = .MemorySizeGrow then
    match readByte Mgr with
    | .error e => .error e
    | .ok (r, c1) =>
      if r.val = 0x00 then .ok (.memorySizeGrow Code r, c1) else .error .MalformedSentinel
  else
    match readUnsignedVarint 32 Mgr with
    | .error e => .error e
    | .ok (align, c1) =>
      match readUnsignedVarint 32 c1 with
      | .error e => .error e
      | .ok (off, c2) => .ok (.memory Code align off, c2)
end MemoryInstruction

namespace ConstInstruction
/-- Modelled from the spec: the Const rows of section 4.3: a signed varint of
the matching width for `i32.const` (`0x41`) and `i64.const` (`0x42`), 4 or 8
raw little-endian bytes for `f32.const` (`0x43`) and `f64.const` (`0x44`). -/
def loadBinary (Code : Byte) (Mgr : ByteCursor) : Read Instruction :=
  if Code.val = 0x41 then
    match readSignedVarint 32 Mgr with
    | .error e => .error e
    | .ok (v, c1) => .ok (.constInt Code v, c1)
  else if Code.val = 0x42 then
    match readSignedVarint 64 Mgr with
    | .error e => .error e
    | .ok (v, c1) => .ok (.constInt Code v, c1)
  else if Code.val = 0x43 then
    match readRawLittleEndian 4 Mgr with
    | .error e => .error e
    | .ok (v, c1) => .ok (.constFloat Code v, c1)
  else
    match readRawLittleEndian 8 Mgr with
    | .error e => .error e
    | .ok (v, c1) => .ok (.constFloat Code v, c1)
end ConstInstruction

/-- Modelled from the spec: dispatch of a classified opcode to its variant's
decode contract (section 4.4); terminators and unrecognised bytes produce no
node. -/
def loadInstruction (seq : Bool → ByteCursor → SeqResult) (Code : Byte) (Mgr : ByteCursor) :
    Read Instruction :=
  match classify Code with
  | .ControlBlock => BlockControlInstruction.load seq Code Mgr
  | .ControlIfElse => IfElseControlInstruction.load seq Code Mgr
  | .ControlBr => BrControlInstruction.loadBinary Code Mgr
  | .ControlBrTable => BrTableControlInstruction.loadBinary Code Mgr
  | .ControlCall => CallControlInstruction.loadBinary Code Mgr
  | .ControlCallIndirect => CallControlInstruction.loadBinary Code Mgr
  | .Variable => VariableInstruction.loadBinary Code Mgr
  | .MemoryAccess => MemoryInstruction.loadBinary Code Mgr
  | .MemorySizeGrow => MemoryInstruction.loadBinary Code Mgr
  | .Const => ConstInstruction.loadBinary Code Mgr
  | .Plain => .ok (.plain Code, Mgr)
  | .ControlElse => .error .InvalidOpcode
  | .ControlEnd => .error .InvalidOpcode
  | .Invalid => .error .InvalidOpcode

/-- Modelled from the spec: the InstructionSequenceDecoder of section 4.4.
One opcode byte is read and classified; the permitted terminator (End always,
Else when `allowElse`) stops with the accumulated list; any other opcode is
dispatched to its variant and the loop continues.  The first argument bounds
the recursion depth. -/
def decodeSeq : Nat → Bool → ByteCursor → SeqResult
  | 0, _, _ => .error .OutOfFuel
  | fuel + 1, allowElse, Mgr =>
    match readByte Mgr with
    | .error e => .error e
    | .ok (op, c1) =>
      if classify op = .ControlEnd then .ok (([], .End), c1)
      else if classify op = .ControlElse ∧ allowElse = true then .ok (([], .Else), c1)
      else
        match loadInstruction (decodeSeq fuel) op c1 with
        | .error e => .error e
        | .ok (ins, c2) =>
          match decodeSeq fuel allowElse c2 with
          | .error e => .error e
          | .ok ((more, t), c3) => .ok ((ins :: more, t), c3)

/-- The sequence decoder with a recursion bound that the input cannot exhaust:
every step of `decodeSeq` reads at least one byte. -/
def decodeSequence (allowElse : Bool) (Mgr : ByteCursor) : SeqResult :=
  decodeSeq (Mgr.length + 1) allowElse Mgr

namespace BlockControlInstruction
/-- Modelled from the spec: `BlockControlInstruction::loadBinary`. -/
def loadBinary (Code : Byte) (Mgr : ByteCursor) : Read Instruction :=
  load decodeSequence Code Mgr
end BlockControlInstruction

namespace IfElseControlInstruction
/-- Modelled from the spec: `IfElseControlInstruction::loadBinary`. -/
def loadBinary (Code : Byte) (Mgr : ByteCursor) : Read Instruction :=
  load decodeSequence Code Mgr
end IfElseControlInstruction

/-- Grammar of one unsigned varint of at most `groups` bytes: every byte but
the last carries the continuation bit `0x80`, the last one does not. -/
def isVarint : Nat → List Byte → Bool
  | 0, _ => false
  | _ + 1, [] => false
  | _ + 1, [b] => decide (b.val < 128)
  | g + 1, b :: b2 :: rest => decide (128 ≤ b.val) && isVarint g (b2 :: rest)

/-- The number an unsigned 32-bit varint encoding stands for. -/
def varintValue (enc : List Byte) : Nat :=
  ByteCursor.groupsValue (enc.map (fun b => b.val % 128)) % 2 ^ 32

/-- The opcode positions of the sequence that starts at a cursor hold a byte
of the reserved range `0xED`-`0xEF`: after any number of complete instructions
either the next opcode is such a byte, or it opens a Block, Loop or If whose
body in turn holds one, at any nesting depth.  The flag tells whether Else is a
permitted terminator of the sequence. -/
inductive ReachesInvalid : Bool → ByteCursor → Prop where
  | here (a : Bool) (b : Byte) (rest : ByteCursor) :
      0xED ≤ b.val → b.val ≤ 0xEF → ReachesInvalid a (b :: rest)
  | next (a : Bool) (op : Byte) (c1 c2 : ByteCursor) (ins : Instruction) :
      loadInstruction decodeSequence op c1 = .ok (ins, c2) →
      ReachesInvalid a c2 → ReachesInvalid a (op :: c1)
  | inBlock (a : Bool) (op bt : Byte) (c : ByteCursor) :
      classify op = .ControlBlock → ReachesInvalid false c → ReachesInvalid a (op :: bt :: c)
  | inThen (a : Bool) (op bt : Byte) (c : ByteCursor) :
      classify op = .ControlIfElse → ReachesInvalid true c → ReachesInvalid a (op :: bt :: c)
  | inElse (a : Bool) (op bt : Byte) (c c2 : ByteCursor) (thenB : List Instruction) :
      classify op = .ControlIfElse → decodeSequence true c = .ok ((thenB, .Else), c2) →
      ReachesInvalid false c2 → ReachesInvalid a (op :: bt :: c)

/-- A read is local: on success it hands back a cursor that is no longer than
the one it got, and bytes appended to the input are left unread behind it. -/
def Local {α : Type} (R : ByteCursor → Read α) : Prop :=
  ∀ c v r, R c = .ok (v, r) → r.length ≤ c.length ∧ ∀ E, R (c ++ E) = .ok (v, r ++ E)

/-- Modelled from the spec: the instruction variants with a decode contract
of their own (section 4.3), the classes whose `loadBinary` the unit tests
call. -/
inductive Variant where
  | Block | IfElse | Br | BrTable | Call | Variable | Memory | Const
  deriving DecidableEq, Repr

/-- The `loadBinary` of a variant, for an instruction built with opcode
`Code`. -/
def Variant.loadBinary : Variant → Byte → ByteCursor → Read Instruction
  | .Block => BlockControlInstruction.loadBinary
  | .IfElse => IfElseControlInstruction.loadBinary
  | .Br => BrControlInstruction.loadBinary
  | .BrTable => BrTableControlInstruction.loadBinary
  | .Call => CallControlInstruction.loadBinary
  | .Variable => VariableInstruction.loadBinary
  | .Memory => MemoryInstruction.loadBinary
  | .Const => ConstInstruction.loadBinary

/-- A read stops short on cut input: when it succeeds on `c ++ E`, then on `c`
alone it either fails for lack of bytes or succeeds with the same value and
leaves `E` untouched. -/
def PrefixTruncated {α : Type} (R : ByteCursor → Read α) : Prop :=
  ∀ c E v r, R (c ++ E) = .ok (v, r) →
    R c = .error .Truncated ∨ ∃ r0, R c = .ok (v, r0) ∧ r = r0 ++ E

/-! ## Sample states used to evaluate the definitions -/

/-- A region filled with zero bytes. -/
def zeroData : Nat → Byte := fun _ => 0

/-- A one-page memory without a declared maximum. -/
def mem1 : MemoryInstance := MemoryInstance.mk0 ⟨false, 1, 0⟩ 4096 zeroData

/-- A memory of 65536 pages (4 GiB) without a declared maximum. -/
def mem64k : MemoryInstance := MemoryInstance.mk0 ⟨false, 65536, 0⟩ 4096 zeroData

/-- A caller's array holding `1, 2, 3, ...`. -/
def countArr : Nat → Byte := fun i => toByte (i + 1)

/-- A one-page memory whose first byte is `0x80`. -/
def mem80 : MemoryInstance :=
  { mem1 with Data := fun i => if i = 0 then 0x80 else 0 }

end SSVM

/-! # Theorems -/

namespace SSVM

open MemoryInstance ByteCursor

set_option maxRecDepth 8192

/-! ## Bounds check -/

/-- C1: for 32-bit `Offset`, `Length` and page count, `checkAccessBound`
returns true exactly when `Offset + Length ≤ CurrPage * 65536` holds for the
exact (non-wrapping) sum and product. -/
theorem checkAccessBound_iff (m : MemoryInstance) (Offset Length : Nat)
    (hO : Offset < U32) (hL : Length < U32) (hC : m.CurrPage < U32) :
    checkAccessBound m Offset Length = true ↔ Offset + Length ≤ m.CurrPage * 65536 := by
  unfold checkAccessBound kPageSize U64
  unfold U32 at hO hL hC
  simp only [decide_eq_true_eq]
  omega

/-- C1 evaluated: in a one-page memory the range `[65535, 65536)` is inside
and the range `[4294967295, 4294967295 + 4294967295)` is not. -/
theorem checkAccessBound_iff_witness :
    (checkAccessBound mem1 65535 1 = true ↔ 65535 + 1 ≤ mem1.CurrPage * 65536) ∧
    (checkAccessBound mem1 4294967295 4294967295 = true ↔
      4294967295 + 4294967295 ≤ mem1.CurrPage * 65536) :=
  ⟨checkAccessBound_iff mem1 65535 1 (by decide) (by decide) (by decide),
   checkAccessBound_iff mem1 4294967295 4294967295 (by decide) (by decide) (by decide)⟩

/-! ## Growing -/

/-- When the 32-bit sum `Count + CurrPage` does not wrap, `growPage` rejects
every request that exceeds the effective cap and leaves the state alone. -/
theorem growPage_rejects_of_no_wrap (m : MemoryInstance) (Count : Nat)
    (hw : Count + m.CurrPage < U32) (h : effectiveCap m < m.CurrPage + Count) :
    growPage m Count = (false, m) := by
  have e : (k4G / kPageSize) % U32 = 65536 := by decide
  have hmod : (Count + m.CurrPage) % U32 = Count + m.CurrPage := Nat.mod_eq_of_lt hw
  unfold effectiveCap at h
  simp only [growPage, e, hmod]
  cases hm : m.HasMaxPage <;> simp only [hm, if_true, if_false, Bool.false_eq_true] at h ⊢
  · rw [if_pos (by omega)]
  · rw [if_pos (by omega)]

/-- C2 at the failing input: a one-page memory without a declared maximum is
asked to grow by `0xFFFFFFFF` pages.  The exact sum `1 + 4294967295` exceeds
the cap `65536`, yet the 32-bit sum wraps to `0`, `growPage` returns true and
the page count becomes `0`. -/
theorem growPage_wraps :
    mem1.WF ∧ mem1.HasMaxPage = false ∧ mem1.CurrPage = 1 ∧
    effectiveCap mem1 = 65536 ∧
    effectiveCap mem1 < mem1.CurrPage + 4294967295 ∧
    (growPage mem1 4294967295).1 = true ∧
    (growPage mem1 4294967295).2.CurrPage = 0 := by
  refine ⟨by decide, rfl, rfl, by decide, by decide, by decide, by decide⟩

/-! ## Typed loads and stores -/

theorem leValue_lt (D : Nat → Byte) : ∀ (n off : Nat), leValue D off n < 256 ^ n := by
  intro n
  induction n with
  | zero => intro off; simp [leValue]
  | succ k ih =>
    intro off
    have h1 := ih (off + 1)
    have h2 := (D off).isLt
    simp only [leValue, pow_succ]
    omega

theorem lor_high (x i a : Nat) (h : x < 2 ^ i) : x ||| (a <<< i) = x + a * 2 ^ i := by
  rw [Nat.shiftLeft_eq, Nat.lor_comm, Nat.mul_comm a, ← Nat.mul_add_lt_is_or h a, Nat.add_comm]

theorem signExtend_fold : ∀ (n L x : Nat), L + n ≤ 8 → x < 256 ^ L →
    (List.range' L n).foldl (fun acc I => acc ||| ((0xFF <<< (I * 8)) % U64)) x
      = x + (256 ^ (L + n) - 256 ^ L) := by
  intro n
  induction n with
  | zero => intro L x _ _; simp
  | succ k ih =>
    intro L x hL hx
    have hp : (256 : Nat) ^ L = 2 ^ (L * 8) := by
      rw [Nat.mul_comm, pow_mul]; norm_num
    have hle : (256 : Nat) ^ (L + 1) ≤ 256 ^ 8 := Nat.pow_le_pow_right (by norm_num) (by omega)
    have hs : (0xFF <<< (L * 8)) % U64 = 255 * 256 ^ L := by
      rw [Nat.shiftLeft_eq, ← hp]
      apply Nat.mod_eq_of_lt
      have : (256 : Nat) ^ (L + 1) = 256 ^ L * 256 := pow_succ 256 L
      unfold U64
      have h8 : (256 : Nat) ^ 8 = 18446744073709551616 := by norm_num
      omega
    have hor : x ||| ((0xFF <<< (L * 8)) % U64) = x + 255 * 256 ^ L := by
      have := lor_high x (L * 8) 255 (by rw [← hp]; exact hx)
      rw [← hp] at this
      rw [hs, ← this, Nat.shiftLeft_eq, ← hp]
    have h1 : (256 : Nat) ^ (L + 1) = 256 ^ L * 256 := pow_succ 256 L
    have hmono : (256 : Nat) ^ (L + 1) ≤ 256 ^ (L + 1 + k) :=
      Nat.pow_le_pow_right (by norm_num) (by omega)
    simp only [List.range', List.foldl_cons]
    rw [hor, ih (L + 1) (x + 255 * 256 ^ L) (by omega) (by omega)]
    have e : L + (k + 1) = L + 1 + k := by omega
    rw [e]
    omega

theorem signExtend_eq (x L : Nat) (hL : L ≤ 8) (hx : x < 256 ^ L) :
    signExtend x L = x + (U64 - 256 ^ L) := by
  unfold signExtend
  rw [signExtend_fold (8 - L) L x (by omega) hx]
  have : L + (8 - L) = 8 := by omega
  rw [this]; unfold U64; norm_num



theorem shiftRight_ne_zero_iff (x k : Nat) : (x >>> k != 0) = decide (2 ^ k ≤ x) := by
  rw [Nat.shiftRight_eq_div_pow]
  have hp : 0 < 2 ^ k := Nat.pos_pow_of_pos k (by norm_num)
  by_cases h : 2 ^ k ≤ x
  · have : 0 < x / 2 ^ k := Nat.div_pos h hp
    simp [h]; omega
  · have : x / 2 ^ k = 0 := Nat.div_eq_of_lt (by omega)
    simp [h, this]

/-- C4: for an integer target type `T`, a length `1 ≤ Length ≤ sizeof(T)` and
an in-bounds `Offset`, `loadValue<T>` succeeds and the loaded pattern stands for
the little-endian value of the `Length` bytes at `Offset`, read as a
two's-complement `8 * Length`-bit number when `T` is signed (sign extension)
and as an unsigned number otherwise (zero extension). -/
theorem loadValue_int (m : MemoryInstance) (T : WasmType) (Value Offset Length : Nat)
    (hT : T.isFloat = false) (hL1 : 1 ≤ Length) (hL2 : Length ≤ T.sizeof)
    (hB : checkAccessBound m Offset Length = true) :
    ∃ r, loadValue m T Value Offset Length = .ok r ∧ r < T.card ∧
      T.asInt r = (if T.isSigned then twosComplement (8 * Length) (leValue m.Data Offset Length)
                   else (leValue m.Data Offset Length : Int)) := by
  have hx := leValue_lt m.Data Length Offset
  have hL8 : Length ≤ 8 := by cases T <;> simp [WasmType.sizeof] at hL2 <;> omega
  have hse := signExtend_eq (leValue m.Data Offset Length) Length hL8 hx
  have hsh := shiftRight_ne_zero_iff (leValue m.Data Offset Length) (Length * 8 - 1)
  have hmod : (Length * 8 - 1) % U32 = Length * 8 - 1 := by unfold U32; omega
  unfold loadValue
  have hnl : ¬ Length > T.sizeof := by omega
  have hpos : Length > 0 := by omega
  simp only [hnl, hB, hpos, hT, if_true, if_false, Bool.not_true, hmod, hsh, hse]
  generalize leValue m.Data Offset Length = x at *
  cases T <;> simp [WasmType.isFloat] at hT <;>
    simp only [WasmType.sizeof] at hL2 <;>
    interval_cases Length <;>
    simp [WasmType.isSigned, WasmType.card, WasmType.asInt, WasmType.sizeof, twosComplement, U64] at hx ⊢ <;>
    first | omega | (split_ifs <;> omega)



/-- C4 evaluated: the single byte `0x80` loads as `-128` into `int32_t` and as
`128` into `uint32_t`. -/
theorem loadValue_int_witness :
    (∃ r, loadValue mem80 .i32 0 0 1 = .ok r ∧ WasmType.asInt .i32 r = -128) ∧
    (∃ r, loadValue mem80 .u32 0 0 1 = .ok r ∧ WasmType.asInt .u32 r = 128) := by
  constructor
  · obtain ⟨r, h1, _, h3⟩ := loadValue_int mem80 .i32 0 0 1 rfl (by decide) (by decide) (by decide)
    exact ⟨r, h1, by rw [h3]; decide⟩
  · obtain ⟨r, h1, _, h3⟩ := loadValue_int mem80 .u32 0 0 1 rfl (by decide) (by decide) (by decide)
    exact ⟨r, h1, by rw [h3]; decide⟩

theorem leValue_congr (D D' : Nat → Byte) : ∀ (n off : Nat),
    (∀ i, off ≤ i → i < off + n → D i = D' i) → leValue D off n = leValue D' off n := by
  intro n
  induction n with
  | zero => intro off _; rfl
  | succ k ih =>
    intro off h
    simp only [leValue]
    rw [h off (Nat.le_refl _) (by omega), ih (off + 1) (fun i h1 h2 => h i (by omega) (by omega))]

theorem leValue_writeLE (D : Nat → Byte) : ∀ (n off v : Nat),
    leValue (writeLE D off v n) off n = v % 256 ^ n := by
  intro n
  induction n with
  | zero => intro off v; simp [leValue, Nat.mod_one]
  | succ k ih =>
    intro off v
    simp only [leValue]
    have hrest : leValue (writeLE D off v (k + 1)) (off + 1) k
        = leValue (writeLE D (off + 1) (v / 256) k) (off + 1) k := by
      apply leValue_congr
      intro i h1 h2
      have e : i - off = (i - (off + 1)) + 1 := by omega
      have c1 : off ≤ i ∧ i < off + (k + 1) := ⟨by omega, by omega⟩
      have c2 : off + 1 ≤ i ∧ i < off + 1 + k := ⟨h1, h2⟩
      simp only [writeLE, c1, c2, and_self, if_true]
      rw [e, pow_succ', Nat.div_div_eq_div_mul]
    have hfirst : ((writeLE D off v (k + 1)) off).val = v % 256 := by
      simp [writeLE, toByte]
    rw [hrest, ih, hfirst, pow_succ', Nat.mod_mul]

theorem checkAccessBound_data (m : MemoryInstance) (D : Nat → Byte) (Offset Length : Nat) :
    checkAccessBound { m with Data := D } Offset Length = checkAccessBound m Offset Length := rfl

/-- C3: for every type `T` of the typed accessors, every bit pattern `v` of
`T` and every `Offset` for which `checkAccessBound(Offset, sizeof(T))` holds,
`storeValue<T>(v, Offset, sizeof(T))` succeeds and a following
`loadValue<T>(out, Offset, sizeof(T))` succeeds with `out` equal to `v` bit for
bit, whatever `out` held before.  The storable types (`IsWasmBuiltInV`) are
among the six types covered. -/
theorem storeValue_loadValue (m : MemoryInstance) (T : WasmType) (v Value0 Offset : Nat)
    (hv : v < T.card) (hB : checkAccessBound m Offset T.sizeof = true) :
    ∃ m', storeValue m T v Offset T.sizeof = .ok m' ∧
      loadValue m' T Value0 Offset T.sizeof = .ok v := by
  have hpos : T.sizeof > 0 := by cases T <;> decide
  have hL8 : T.sizeof ≤ 8 := by cases T <;> decide
  have hcard : T.card = 256 ^ T.sizeof := by cases T <;> rfl
  refine ⟨{ m with Data := writeLE m.Data Offset v T.sizeof }, ?_, ?_⟩
  · simp [storeValue, hB, hpos]
  · have hle : leValue (writeLE m.Data Offset v T.sizeof) Offset T.sizeof = v := by
      rw [leValue_writeLE, ← hcard, Nat.mod_eq_of_lt hv]
    have hse := signExtend_eq v T.sizeof hL8 (by rw [← hcard]; exact hv)
    have hsh := shiftRight_ne_zero_iff v (T.sizeof * 8 - 1)
    have hmod : (T.sizeof * 8 - 1) % U32 = T.sizeof * 8 - 1 := by unfold U32; omega
    unfold loadValue
    simp only [checkAccessBound_data, hB, hpos, hle, hmod, hsh, hse, gt_iff_lt, lt_self_iff_false,
      if_true, if_false, Bool.not_true]
    cases T <;>
      simp [WasmType.isFloat, WasmType.isSigned, WasmType.card, WasmType.sizeof, U64] at hv ⊢ <;>
      first | omega | (split_ifs <;> omega)

/-- C3 evaluated: the double `-3.1415926535897932` (pattern
`0xC00921FB54442D18`) stored in the last eight bytes of a one-page memory is
read back unchanged. -/
theorem storeValue_loadValue_witness :
    0xC00921FB54442D18 < WasmType.f64.card ∧
    checkAccessBound mem1 65528 WasmType.f64.sizeof = true ∧
    ∃ m', storeValue mem1 .f64 0xC00921FB54442D18 65528 WasmType.f64.sizeof = .ok m' ∧
      loadValue m' .f64 0 65528 WasmType.f64.sizeof = .ok 0xC00921FB54442D18 :=
  ⟨by decide, by decide,
   storeValue_loadValue mem1 .f64 0xC00921FB54442D18 0 65528 (by decide) (by decide)⟩

/-- C5 at the failing input: a one-page memory without a declared maximum
grows by `0xFFFFFFFF` pages.  `growPage` returns true, the range `[0, 1)` lies
inside `(1 + 4294967295) * 65536` bytes, and yet `getBytes(0, 1)` fails because
the 32-bit page count wrapped to `0`. -/
theorem growPage_getBytes_wraps :
    (growPage mem1 4294967295).1 = true ∧
    0 + 1 ≤ (mem1.CurrPage + 4294967295) * 65536 ∧
    getBytes (growPage mem1 4294967295).2 0 1 = .error ErrCode.MemoryOutOfBounds := by
  refine ⟨by decide, by decide, by decide⟩

/-! ## Decoder: every read is local -/

theorem readByte_local : Local readByte := by
  intro c v r h
  cases c with
  | nil => simp [readByte] at h
  | cons b rest =>
    simp only [readByte, Except.ok.injEq, Prod.mk.injEq] at h
    obtain ⟨rfl, rfl⟩ := h
    exact ⟨by simp, fun E => by simp [readByte]⟩

theorem readGroups_local : ∀ g, Local (readGroups g) := by
  intro g
  induction g with
  | zero => intro c v r h; simp [readGroups] at h
  | succ n ih =>
    intro c v r h
    cases c with
    | nil => simp [readGroups] at h
    | cons b rest =>
      simp only [readGroups] at h
      split_ifs at h with hb
      · simp only [Except.ok.injEq, Prod.mk.injEq] at h
        obtain ⟨rfl, rfl⟩ := h
        exact ⟨by simp, fun E => by simp [readGroups, hb]⟩
      · cases hr : readGroups n rest with
        | error e => simp [hr] at h
        | ok p =>
          obtain ⟨gs, r1⟩ := p
          simp only [hr, Except.ok.injEq, Prod.mk.injEq] at h
          obtain ⟨rfl, rfl⟩ := h
          obtain ⟨l1, a1⟩ := ih rest gs r1 hr
          exact ⟨by simp; omega, fun E => by simp [readGroups, hb, a1 E]⟩

theorem readUnsignedVarint_local (maxBits : Nat) : Local (readUnsignedVarint maxBits) := by
  intro c v r h
  unfold readUnsignedVarint at h
  cases hr : readGroups (maxGroups maxBits) c with
  | error e => simp [hr] at h
  | ok p =>
    obtain ⟨gs, r1⟩ := p
    simp only [hr, Except.ok.injEq, Prod.mk.injEq] at h
    obtain ⟨rfl, rfl⟩ := h
    obtain ⟨l1, a1⟩ := readGroups_local _ c gs r1 hr
    exact ⟨l1, fun E => by simp [readUnsignedVarint, a1 E]⟩

theorem readSignedVarint_local (maxBits : Nat) : Local (readSignedVarint maxBits) := by
  intro c v r h
  unfold readSignedVarint at h
  cases hr : readGroups (maxGroups maxBits) c with
  | error e => simp [hr] at h
  | ok p =>
    obtain ⟨gs, r1⟩ := p
    simp only [hr, Except.ok.injEq, Prod.mk.injEq] at h
    obtain ⟨rfl, rfl⟩ := h
    obtain ⟨l1, a1⟩ := readGroups_local _ c gs r1 hr
    exact ⟨l1, fun E => by simp [readSignedVarint, a1 E]⟩

theorem readRawLittleEndian_local (width : Nat) : Local (readRawLittleEndian width) := by
  intro c v r h
  unfold readRawLittleEndian at h
  split_ifs at h with hw
  simp only [Except.ok.injEq, Prod.mk.injEq] at h
  obtain ⟨rfl, rfl⟩ := h
  refine ⟨by simp, fun E => ?_⟩
  have hw' : width ≤ c.length := by omega
  have h1 : ¬ (c ++ E).length < width := by simp; omega
  simp only [readRawLittleEndian, h1, if_false]
  rw [List.take_append_of_le_length hw', List.drop_append_of_le_length hw']

theorem readElems_local {α : Type} (R : ByteCursor → Read α) (hR : Local R) :
    ∀ n, Local (readElems R n) := by
  intro n
  induction n with
  | zero =>
    intro c v r h
    simp only [readElems, Except.ok.injEq, Prod.mk.injEq] at h
    obtain ⟨rfl, rfl⟩ := h
    exact ⟨Nat.le_refl _, fun E => by simp [readElems]⟩
  | succ k ih =>
    intro c v r h
    simp only [readElems] at h
    cases h1 : R c with
    | error e => simp [h1] at h
    | ok p =>
      obtain ⟨x, c1⟩ := p
      simp only [h1] at h
      cases h2 : readElems R k c1 with
      | error e => simp [h2] at h
      | ok q =>
        obtain ⟨xs, c2⟩ := q
        simp only [h2, Except.ok.injEq, Prod.mk.injEq] at h
        obtain ⟨rfl, rfl⟩ := h
        obtain ⟨l1, a1⟩ := hR c x c1 h1
        obtain ⟨l2, a2⟩ := ih c1 xs c2 h2
        exact ⟨by omega, fun E => by simp [readElems, a1 E, a2 E]⟩

theorem readVectorPrefixed_local {α : Type} (R : ByteCursor → Read α) (hR : Local R) :
    Local (readVectorPrefixed R) := by
  intro c v r h
  unfold readVectorPrefixed at h
  cases h1 : readUnsignedVarint 32 c with
  | error e => simp [h1] at h
  | ok p =>
    obtain ⟨n, c1⟩ := p
    simp only [h1] at h
    obtain ⟨l1, a1⟩ := readUnsignedVarint_local 32 c n c1 h1
    obtain ⟨l2, a2⟩ := readElems_local R hR n c1 v r h
    exact ⟨by omega, fun E => by simp [readVectorPrefixed, a1 E, a2 E]⟩

theorem br_loadBinary_local (Code : Byte) :
    Local (BrControlInstruction.loadBinary Code) := by
  intro c v r h
  unfold BrControlInstruction.loadBinary at h
  cases h1 : readUnsignedVarint 32 c with
  | error e => simp [h1] at h
  | ok p =>
    obtain ⟨n, c1⟩ := p
    simp only [h1, Except.ok.injEq, Prod.mk.injEq] at h
    obtain ⟨rfl, rfl⟩ := h
    obtain ⟨l1, a1⟩ := readUnsignedVarint_local 32 c n c1 h1
    exact ⟨l1, fun E => by simp [BrControlInstruction.loadBinary, a1 E]⟩

theorem variable_loadBinary_local (Code : Byte) :
    Local (VariableInstruction.loadBinary Code) := by
  intro c v r h
  unfold VariableInstruction.loadBinary at h
  cases h1 : readUnsignedVarint 32 c with
  | error e => simp [h1] at h
  | ok p =>
    obtain ⟨n, c1⟩ := p
    simp only [h1, Except.ok.injEq, Prod.mk.injEq] at h
    obtain ⟨rfl, rfl⟩ := h
    obtain ⟨l1, a1⟩ := readUnsignedVarint_local 32 c n c1 h1
    exact ⟨l1, fun E => by simp [VariableInstruction.loadBinary, a1 E]⟩

theorem brTable_loadBinary_local (Code : Byte) :
    Local (BrTableControlInstruction.loadBinary Code) := by
  intro c v r h
  unfold BrTableControlInstruction.loadBinary at h
  cases h1 : readVectorPrefixed (readUnsignedVarint 32) c with
  | error e => simp [h1] at h
  | ok p =>
    obtain ⟨tbl, c1⟩ := p
    simp only [h1] at h
    cases h2 : readUnsignedVarint 32 c1 with
    | error e => simp [h2] at h
    | ok q =>
      obtain ⟨l, c2⟩ := q
      simp only [h2, Except.ok.injEq, Prod.mk.injEq] at h
      obtain ⟨rfl, rfl⟩ := h
      obtain ⟨l1, a1⟩ := readVectorPrefixed_local _ (readUnsignedVarint_local 32) c tbl c1 h1
      obtain ⟨l2, a2⟩ := readUnsignedVarint_local 32 c1 l c2 h2
      exact ⟨by omega, fun E => by simp [BrTableControlInstruction.loadBinary, a1 E, a2 E]⟩

theorem call_loadBinary_local (Code : Byte) :
    Local (CallControlInstruction.loadBinary Code) := by
  intro c v r h
  unfold CallControlInstruction.loadBinary at h
  cases h1 : readUnsignedVarint 32 c with
  | error e => simp [h1] at h
  | ok p =>
    obtain ⟨n, c1⟩ := p
    simp only [h1] at h
    obtain ⟨l1, a1⟩ := readUnsignedVarint_local 32 c n c1 h1
    split_ifs at h with hc
    · cases h2 : readByte c1 with
      | error e => simp [h2] at h
      | ok q =>
        obtain ⟨b, c2⟩ := q
        simp only [h2, Except.ok.injEq, Prod.mk.injEq] at h
        obtain ⟨rfl, rfl⟩ := h
        obtain ⟨l2, a2⟩ := readByte_local c1 b c2 h2
        exact ⟨by omega, fun E => by simp [CallControlInstruction.loadBinary, a1 E, a2 E, hc]⟩
    · simp only [Except.ok.injEq, Prod.mk.injEq] at h
      obtain ⟨rfl, rfl⟩ := h
      exact ⟨l1, fun E => by simp [CallControlInstruction.loadBinary, a1 E, hc]⟩

theorem memory_loadBinary_local (Code : Byte) :
    Local (MemoryInstruction.loadBinary Code) := by
  intro c v r h
  unfold MemoryInstruction.loadBinary at h
  split_ifs at h with hc
  · cases h1 : readByte c with
    | error e => simp [h1] at h
    | ok q =>
      obtain ⟨b, c1⟩ := q
      simp only [h1] at h
      split_ifs at h with hz
      simp only [Except.ok.injEq, Prod.mk.injEq] at h
      obtain ⟨rfl, rfl⟩ := h
      obtain ⟨l1, a1⟩ := readByte_local c b c1 h1
      exact ⟨l1, fun E => by simp [MemoryInstruction.loadBinary, a1 E, hc, hz]⟩
  · cases h1 : readUnsignedVarint 32 c with
    | error e => simp [h1] at h
    | ok p =>
      obtain ⟨al, c1⟩ := p
      simp only [h1] at h
      cases h2 : readUnsignedVarint 32 c1 with
      | error e => simp [h2] at h
      | ok q =>
        obtain ⟨off, c2⟩ := q
        simp only [h2, Except.ok.injEq, Prod.mk.injEq] at h
        obtain ⟨rfl, rfl⟩ := h
        obtain ⟨l1, a1⟩ := readUnsignedVarint_local 32 c al c1 h1
        obtain ⟨l2, a2⟩ := readUnsignedVarint_local 32 c1 off c2 h2
        exact ⟨by omega, fun E => by simp [MemoryInstruction.loadBinary, a1 E, a2 E, hc]⟩

theorem const_loadBinary_local (Code : Byte) :
    Local (ConstInstruction.loadBinary Code) := by
  intro c v r h
  unfold ConstInstruction.loadBinary at h
  split_ifs at h with hc1 hc2 hc3
  · cases h1 : readSignedVarint 32 c with
    | error e => simp [h1] at h
    | ok p =>
      obtain ⟨n, c1⟩ := p
      simp only [h1, Except.ok.injEq, Prod.mk.injEq] at h
      obtain ⟨rfl, rfl⟩ := h
      obtain ⟨l1, a1⟩ := readSignedVarint_local 32 c n c1 h1
      exact ⟨l1, fun E => by simp [ConstInstruction.loadBinary, a1 E, hc1]⟩
  · cases h1 : readSignedVarint 64 c with
    | error e => simp [h1] at h
    | ok p =>
      obtain ⟨n, c1⟩ := p
      simp only [h1, Except.ok.injEq, Prod.mk.injEq] at h
      obtain ⟨rfl, rfl⟩ := h
      obtain ⟨l1, a1⟩ := readSignedVarint_local 64 c n c1 h1
      exact ⟨l1, fun E => by simp [ConstInstruction.loadBinary, a1 E, hc1, hc2]⟩
  · cases h1 : readRawLittleEndian 4 c with
    | error e => simp [h1] at h
    | ok p =>
      obtain ⟨n, c1⟩ := p
      simp only [h1, Except.ok.injEq, Prod.mk.injEq] at h
      obtain ⟨rfl, rfl⟩ := h
      obtain ⟨l1, a1⟩ := readRawLittleEndian_local 4 c n c1 h1
      exact ⟨l1, fun E => by simp [ConstInstruction.loadBinary, a1 E, hc1, hc2, hc3]⟩
  · cases h1 : readRawLittleEndian 8 c with
    | error e => simp [h1] at h
    | ok p =>
      obtain ⟨n, c1⟩ := p
      simp only [h1, Except.ok.injEq, Prod.mk.injEq] at h
      obtain ⟨rfl, rfl⟩ := h
      obtain ⟨l1, a1⟩ := readRawLittleEndian_local 8 c n c1 h1
      exact ⟨l1, fun E => by simp [ConstInstruction.loadBinary, a1 E, hc1, hc2, hc3]⟩

theorem block_load_local (seq : Bool → ByteCursor → SeqResult)
    (hs : ∀ a, Local (seq a)) (Code : Byte) : Local (BlockControlInstruction.load seq Code) := by
  intro c v r h
  unfold BlockControlInstruction.load at h
  cases h1 : readByte c with
  | error e => simp [h1] at h
  | ok p =>
    obtain ⟨bt, c1⟩ := p
    simp only [h1] at h
    cases h2 : seq false c1 with
    | error e => simp [h2] at h
    | ok q =>
      obtain ⟨⟨body, t⟩, c2⟩ := q
      simp only [h2, Except.ok.injEq, Prod.mk.injEq] at h
      obtain ⟨rfl, rfl⟩ := h
      obtain ⟨l1, a1⟩ := readByte_local c bt c1 h1
      obtain ⟨l2, a2⟩ := hs false c1 (body, t) c2 h2
      exact ⟨by omega, fun E => by simp [BlockControlInstruction.load, a1 E, a2 E]⟩

theorem ifElse_load_local (seq : Bool → ByteCursor → SeqResult)
    (hs : ∀ a, Local (seq a)) (Code : Byte) : Local (IfElseControlInstruction.load seq Code) := by
  intro c v r h
  unfold IfElseControlInstruction.load at h
  cases h1 : readByte c with
  | error e => simp [h1] at h
  | ok p =>
    obtain ⟨bt, c1⟩ := p
    simp only [h1] at h
    obtain ⟨l1, a1⟩ := readByte_local c bt c1 h1
    cases h2 : seq true c1 with
    | error e => simp [h2] at h
    | ok q =>
      obtain ⟨⟨thenB, t⟩, c2⟩ := q
      obtain ⟨l2, a2⟩ := hs true c1 (thenB, t) c2 h2
      cases t with
      | End =>
        simp only [h2, Except.ok.injEq, Prod.mk.injEq] at h
        obtain ⟨rfl, rfl⟩ := h
        exact ⟨by omega, fun E => by simp [IfElseControlInstruction.load, a1 E, a2 E]⟩
      | Else =>
        simp only [h2] at h
        cases h3 : seq false c2 with
        | error e => simp [h3] at h
        | ok q3 =>
          obtain ⟨⟨elseB, t3⟩, c3⟩ := q3
          simp only [h3, Except.ok.injEq, Prod.mk.injEq] at h
          obtain ⟨rfl, rfl⟩ := h
          obtain ⟨l3, a3⟩ := hs false c2 (elseB, t3) c3 h3
          exact ⟨by omega, fun E => by simp [IfElseControlInstruction.load, a1 E, a2 E, a3 E]⟩

theorem loadInstruction_local (seq : Bool → ByteCursor → SeqResult)
    (hs : ∀ a, Local (seq a)) (Code : Byte) : Local (loadInstruction seq Code) := by
  intro c v r h
  have key : ∀ (R : ByteCursor → Read Instruction), Local R → loadInstruction seq Code = R →
      r.length ≤ c.length ∧ ∀ E, loadInstruction seq Code (c ++ E) = .ok (v, r ++ E) := by
    intro R hR e
    rw [e] at h ⊢
    exact hR c v r h
  cases hc : classify Code
  case ControlBlock =>
    exact key _ (block_load_local seq hs Code) (by funext x; simp [loadInstruction, hc])
  case ControlIfElse =>
    exact key _ (ifElse_load_local seq hs Code) (by funext x; simp [loadInstruction, hc])
  case ControlBr =>
    exact key _ (br_loadBinary_local Code) (by funext x; simp [loadInstruction, hc])
  case ControlBrTable =>
    exact key _ (brTable_loadBinary_local Code) (by funext x; simp [loadInstruction, hc])
  case ControlCall =>
    exact key _ (call_loadBinary_local Code) (by funext x; simp [loadInstruction, hc])
  case ControlCallIndirect =>
    exact key _ (call_loadBinary_local Code) (by funext x; simp [loadInstruction, hc])
  case Variable =>
    exact key _ (variable_loadBinary_local Code) (by funext x; simp [loadInstruction, hc])
  case MemoryAccess =>
    exact key _ (memory_loadBinary_local Code) (by funext x; simp [loadInstruction, hc])
  case MemorySizeGrow =>
    exact key _ (memory_loadBinary_local Code) (by funext x; simp [loadInstruction, hc])
  case Const =>
    exact key _ (const_loadBinary_local Code) (by funext x; simp [loadInstruction, hc])
  case Plain =>
    simp only [loadInstruction, hc, Except.ok.injEq, Prod.mk.injEq] at h
    obtain ⟨rfl, rfl⟩ := h
    exact ⟨Nat.le_refl _, fun E => by simp [loadInstruction, hc]⟩
  case ControlElse => simp [loadInstruction, hc] at h
  case ControlEnd => simp [loadInstruction, hc] at h
  case Invalid => simp [loadInstruction, hc] at h

theorem decodeSeq_local : ∀ (f : Nat) (a : Bool), Local (decodeSeq f a) := by
  intro f
  induction f with
  | zero => intro a c v r h; simp [decodeSeq] at h
  | succ n ih =>
    intro a c v r h
    rw [decodeSeq] at h
    cases h1 : readByte c with
    | error e => simp [h1] at h
    | ok p =>
      obtain ⟨op, c1⟩ := p
      simp only [h1] at h
      obtain ⟨l1, a1⟩ := readByte_local c op c1 h1
      split_ifs at h with hE hL
      · simp only [Except.ok.injEq, Prod.mk.injEq] at h
        obtain ⟨rfl, rfl⟩ := h
        exact ⟨l1, fun E => by rw [decodeSeq]; simp [a1 E, hE]⟩
      · simp only [Except.ok.injEq, Prod.mk.injEq] at h
        obtain ⟨rfl, rfl⟩ := h
        exact ⟨l1, fun E => by rw [decodeSeq]; simp [a1 E, hE, hL]⟩
      · cases h2 : loadInstruction (decodeSeq n) op c1 with
        | error e => simp [h2] at h
        | ok q =>
          obtain ⟨ins, c2⟩ := q
          simp only [h2] at h
          obtain ⟨l2, a2⟩ := loadInstruction_local (decodeSeq n) ih op c1 ins c2 h2
          cases h3 : decodeSeq n a c2 with
          | error e => simp [h3] at h
          | ok q3 =>
            obtain ⟨⟨more, t⟩, c3⟩ := q3
            simp only [h3, Except.ok.injEq, Prod.mk.injEq] at h
            obtain ⟨rfl, rfl⟩ := h
            obtain ⟨l3, a3⟩ := ih a c2 (more, t) c3 h3
            exact ⟨by omega, fun E => by rw [decodeSeq]; simp [a1 E, a2 E, a3 E, hE, hL]⟩

theorem decodeSeq_lt (f : Nat) (a : Bool) (c r : ByteCursor) (v : List Instruction × Terminator)
    (h : decodeSeq f a c = .ok (v, r)) : r.length < c.length := by
  cases f with
  | zero => simp [decodeSeq] at h
  | succ n =>
    rw [decodeSeq] at h
    cases c with
    | nil => simp [readByte] at h
    | cons op c1 =>
      simp only [readByte] at h
      split_ifs at h with hE hL
      · simp only [Except.ok.injEq, Prod.mk.injEq] at h
        obtain ⟨_, rfl⟩ := h; simp
      · simp only [Except.ok.injEq, Prod.mk.injEq] at h
        obtain ⟨_, rfl⟩ := h; simp
      · cases h2 : loadInstruction (decodeSeq n) op c1 with
        | error e => simp [h2] at h
        | ok q =>
          obtain ⟨ins, c2⟩ := q
          simp only [h2] at h
          have l2 := (loadInstruction_local (decodeSeq n) (decodeSeq_local n) op c1 ins c2 h2).1
          cases h3 : decodeSeq n a c2 with
          | error e => simp [h3] at h
          | ok q3 =>
            obtain ⟨⟨more, t⟩, c3⟩ := q3
            simp only [h3, Except.ok.injEq, Prod.mk.injEq] at h
            obtain ⟨_, rfl⟩ := h
            have l3 := (decodeSeq_local n a c2 (more, t) c3 h3).1
            simp; omega



/-! ## Decoder: the recursion bound is immaterial -/

theorem block_load_congr (seq1 seq2 : Bool → ByteCursor → SeqResult)
    (Code : Byte) (c : ByteCursor)
    (h : ∀ a c', c'.length < c.length → seq1 a c' = seq2 a c') :
    BlockControlInstruction.load seq1 Code c = BlockControlInstruction.load seq2 Code c := by
  unfold BlockControlInstruction.load
  cases c with
  | nil => rfl
  | cons bt c1 =>
    simp only [readByte]
    rw [h false c1 (by simp)]

theorem ifElse_load_congr (seq1 seq2 : Bool → ByteCursor → SeqResult)
    (hl : ∀ a, Local (seq1 a)) (Code : Byte) (c : ByteCursor)
    (h : ∀ a c', c'.length < c.length → seq1 a c' = seq2 a c') :
    IfElseControlInstruction.load seq1 Code c = IfElseControlInstruction.load seq2 Code c := by
  unfold IfElseControlInstruction.load
  cases c with
  | nil => rfl
  | cons bt c1 =>
    simp only [readByte]
    rw [← h true c1 (by simp)]
    cases h2 : seq1 true c1 with
    | error e => rfl
    | ok q =>
      obtain ⟨⟨thenB, t⟩, c2⟩ := q
      have l2 := (hl true c1 (thenB, t) c2 h2).1
      cases t with
      | End => rfl
      | Else =>
        simp only
        rw [h false c2 (by simp; omega)]

theorem loadInstruction_congr (seq1 seq2 : Bool → ByteCursor → SeqResult)
    (hl : ∀ a, Local (seq1 a)) (Code : Byte) (c : ByteCursor)
    (h : ∀ a c', c'.length < c.length → seq1 a c' = seq2 a c') :
    loadInstruction seq1 Code c = loadInstruction seq2 Code c := by
  unfold loadInstruction
  cases hc : classify Code <;> simp only
  · exact block_load_congr seq1 seq2 Code c h
  · exact ifElse_load_congr seq1 seq2 hl Code c h

theorem decodeSeq_fuel : ∀ (f1 f2 : Nat) (a : Bool) (c : ByteCursor),
    c.length < f1 → c.length < f2 → decodeSeq f1 a c = decodeSeq f2 a c := by
  intro f1
  induction f1 with
  | zero => intro f2 a c h1; omega
  | succ n ih =>
    intro f2 a c h1 h2
    cases f2 with
    | zero => omega
    | succ m =>
      rw [decodeSeq, decodeSeq]
      cases c with
      | nil => rfl
      | cons op c1 =>
        simp only [readByte]
        simp only [List.length_cons] at h1 h2
        have e1 : loadInstruction (decodeSeq n) op c1 = loadInstruction (decodeSeq m) op c1 :=
          loadInstruction_congr _ _ (decodeSeq_local n) op c1
            (fun a c' hc' => ih m a c' (by omega) (by omega))
        rw [← e1]
        cases h3 : loadInstruction (decodeSeq n) op c1 with
        | error e => rfl
        | ok q =>
          obtain ⟨ins, c2⟩ := q
          have l2 := (loadInstruction_local (decodeSeq n) (decodeSeq_local n) op c1 ins c2 h3).1
          simp only
          rw [ih m a c2 (by omega) (by omega)]

theorem decodeSeq_eq_decodeSequence (f : Nat) (a : Bool) (c : ByteCursor) (h : c.length < f) :
    decodeSeq f a c = decodeSequence a c :=
  decodeSeq_fuel f (c.length + 1) a c h (Nat.lt_succ_self _)

theorem decodeSequence_local (a : Bool) : Local (decodeSequence a) := by
  intro c v r h
  unfold decodeSequence at h
  refine ⟨(decodeSeq_local _ a c v r h).1, fun E => ?_⟩
  have h' : decodeSeq ((c ++ E).length + 1) a c = .ok (v, r) := by
    rw [decodeSeq_fuel _ (c.length + 1) a c (by simp; omega) (Nat.lt_succ_self _)]; exact h
  exact (decodeSeq_local _ a c v r h').2 E

theorem decodeSequence_nil (a : Bool) : decodeSequence a [] = .error .Truncated := rfl

/-- The sequence decoder satisfies the recursive description of section 4.4
with no recursion bound. -/
theorem decodeSequence_cons (a : Bool) (op : Byte) (c1 : ByteCursor) :
    decodeSequence a (op :: c1) =
      if classify op = .ControlEnd then .ok (([], .End), c1)
      else if classify op = .ControlElse ∧ a = true then .ok (([], .Else), c1)
      else
        match loadInstruction decodeSequence op c1 with
        | .error e => .error e
        | .ok (ins, c2) =>
          match decodeSequence a c2 with
          | .error e => .error e
          | .ok ((more, t), c3) => .ok ((ins :: more, t), c3) := by
  have e1 : loadInstruction (decodeSeq (c1.length + 1)) op c1 = loadInstruction decodeSequence op c1 :=
    loadInstruction_congr _ _ (decodeSeq_local _) op c1
      (fun a c' hc' => decodeSeq_eq_decodeSequence _ a c' (by omega))
  rw [show decodeSequence a (op :: c1) = decodeSeq (c1.length + 1 + 1) a (op :: c1) from rfl,
    decodeSeq]
  simp only [readByte]
  rw [e1]
  cases h3 : loadInstruction decodeSequence op c1 with
  | error e => rfl
  | ok q =>
    obtain ⟨ins, c2⟩ := q
    have l2 := (loadInstruction_local decodeSequence decodeSequence_local op c1 ins c2 h3).1
    simp only
    rw [decodeSeq_eq_decodeSequence (c1.length + 1) a c2 (by omega)]
    try rfl

/-! ## Decoder: the recursion bound is never hit -/

theorem readByte_settled (c : ByteCursor) : readByte c ≠ .error .OutOfFuel := by
  cases c <;> simp [readByte]

theorem readGroups_settled : ∀ (g : Nat) (c : ByteCursor), readGroups g c ≠ .error .OutOfFuel := by
  intro g
  induction g with
  | zero => intro c; simp [readGroups]
  | succ n ih =>
    intro c
    cases c with
    | nil => simp [readGroups]
    | cons b rest =>
      simp only [readGroups]
      split_ifs
      · simp
      · have := ih rest
        cases h : readGroups n rest with
        | error e => rw [h] at this; simpa using this
        | ok p => simp

theorem readUnsignedVarint_settled (maxBits : Nat) (c : ByteCursor) :
    readUnsignedVarint maxBits c ≠ .error .OutOfFuel := by
  have := readGroups_settled (maxGroups maxBits) c
  unfold readUnsignedVarint
  cases h : readGroups (maxGroups maxBits) c with
  | error e => rw [h] at this; simpa using this
  | ok p => simp

theorem readSignedVarint_settled (maxBits : Nat) (c : ByteCursor) :
    readSignedVarint maxBits c ≠ .error .OutOfFuel := by
  have := readGroups_settled (maxGroups maxBits) c
  unfold readSignedVarint
  cases h : readGroups (maxGroups maxBits) c with
  | error e => rw [h] at this; simpa using this
  | ok p => simp

theorem readRawLittleEndian_settled (width : Nat) (c : ByteCursor) :
    readRawLittleEndian width c ≠ .error .OutOfFuel := by
  unfold readRawLittleEndian
  split_ifs <;> simp

theorem readElems_settled {α : Type} (R : ByteCursor → Read α)
    (hR : ∀ c, R c ≠ .error .OutOfFuel) :
    ∀ (n : Nat) (c : ByteCursor), readElems R n c ≠ .error .OutOfFuel := by
  intro n
  induction n with
  | zero => intro c; simp [readElems]
  | succ k ih =>
    intro c
    simp only [readElems]
    have h1 := hR c
    cases h : R c with
    | error e => rw [h] at h1; simpa using h1
    | ok p =>
      obtain ⟨x, c1⟩ := p
      have h2 := ih c1
      simp only
      cases h' : readElems R k c1 with
      | error e => rw [h'] at h2; simpa using h2
      | ok q => simp

theorem readVectorPrefixed_settled {α : Type} (R : ByteCursor → Read α)
    (hR : ∀ c, R c ≠ .error .OutOfFuel) (c : ByteCursor) :
    readVectorPrefixed R c ≠ .error .OutOfFuel := by
  unfold readVectorPrefixed
  have h1 := readUnsignedVarint_settled 32 c
  cases h : readUnsignedVarint 32 c with
  | error e => rw [h] at h1; simpa using h1
  | ok p =>
    obtain ⟨n, c1⟩ := p
    exact readElems_settled R hR n c1

theorem br_loadBinary_settled (Code : Byte) (c : ByteCursor) :
    BrControlInstruction.loadBinary Code c ≠ .error .OutOfFuel := by
  unfold BrControlInstruction.loadBinary
  have h1 := readUnsignedVarint_settled 32 c
  cases h : readUnsignedVarint 32 c with
  | error e => rw [h] at h1; simpa using h1
  | ok p => simp

theorem variable_loadBinary_settled (Code : Byte) (c : ByteCursor) :
    VariableInstruction.loadBinary Code c ≠ .error .OutOfFuel := by
  unfold VariableInstruction.loadBinary
  have h1 := readUnsignedVarint_settled 32 c
  cases h : readUnsignedVarint 32 c with
  | error e => rw [h] at h1; simpa using h1
  | ok p => simp

theorem brTable_loadBinary_settled (Code : Byte) (c : ByteCursor) :
    BrTableControlInstruction.loadBinary Code c ≠ .error .OutOfFuel := by
  unfold BrTableControlInstruction.loadBinary
  have h1 := readVectorPrefixed_settled _ (readUnsignedVarint_settled 32) c
  cases h : readVectorPrefixed (readUnsignedVarint 32) c with
  | error e => rw [h] at h1; simpa using h1
  | ok p =>
    obtain ⟨tbl, c1⟩ := p
    have h2 := readUnsignedVarint_settled 32 c1
    simp only
    cases h' : readUnsignedVarint 32 c1 with
    | error e => rw [h'] at h2; simpa using h2
    | ok q => simp

theorem call_loadBinary_settled (Code : Byte) (c : ByteCursor) :
    CallControlInstruction.loadBinary Code c ≠ .error .OutOfFuel := by
  unfold CallControlInstruction.loadBinary
  have h1 := readUnsignedVarint_settled 32 c
  cases h : readUnsignedVarint 32 c with
  | error e => rw [h] at h1; simpa using h1
  | ok p =>
    obtain ⟨n, c1⟩ := p
    simp only
    split_ifs
    · have h2 := readByte_settled c1
      cases h' : readByte c1 with
      | error e => rw [h'] at h2; simpa using h2
      | ok q => simp
    · simp

theorem memory_loadBinary_settled (Code : Byte) (c : ByteCursor) :
    MemoryInstruction.loadBinary Code c ≠ .error .OutOfFuel := by
  unfold MemoryInstruction.loadBinary
  split_ifs
  · have h2 := readByte_settled c
    cases h' : readByte c with
    | error e => rw [h'] at h2; simpa using h2
    | ok q =>
      simp only
      split_ifs <;> simp
  · have h1 := readUnsignedVarint_settled 32 c
    cases h : readUnsignedVarint 32 c with
    | error e => rw [h] at h1; simpa using h1
    | ok p =>
      obtain ⟨tbl, c1⟩ := p
      have h2 := readUnsignedVarint_settled 32 c1
      simp only
      cases h' : readUnsignedVarint 32 c1 with
      | error e => rw [h'] at h2; simpa using h2
      | ok q => simp

theorem const_loadBinary_settled (Code : Byte) (c : ByteCursor) :
    ConstInstruction.loadBinary Code c ≠ .error .OutOfFuel := by
  unfold ConstInstruction.loadBinary
  split_ifs
  · have h1 := readSignedVarint_settled 32 c
    cases h : readSignedVarint 32 c with
    | error e => rw [h] at h1; simpa using h1
    | ok p => simp
  · have h1 := readSignedVarint_settled 64 c
    cases h : readSignedVarint 64 c with
    | error e => rw [h] at h1; simpa using h1
    | ok p => simp
  · have h1 := readRawLittleEndian_settled 4 c
    cases h : readRawLittleEndian 4 c with
    | error e => rw [h] at h1; simpa using h1
    | ok p => simp
  · have h1 := readRawLittleEndian_settled 8 c
    cases h : readRawLittleEndian 8 c with
    | error e => rw [h] at h1; simpa using h1
    | ok p => simp

theorem loadInstruction_settled (seq : Bool → ByteCursor → SeqResult) (hl : ∀ a, Local (seq a))
    (Code : Byte) (c : ByteCursor)
    (hs : ∀ a c', c'.length < c.length → seq a c' ≠ .error .OutOfFuel) :
    loadInstruction seq Code c ≠ .error .OutOfFuel := by
  unfold loadInstruction
  cases hc : classify Code <;> simp only
  case ControlBlock =>
    unfold BlockControlInstruction.load
    cases c with
    | nil => simp [readByte]
    | cons bt c1 =>
      simp only [readByte]
      have h1 := hs false c1 (by simp)
      cases h : seq false c1 with
      | error e => rw [h] at h1; simpa using h1
      | ok p => simp
  case ControlIfElse =>
    unfold IfElseControlInstruction.load
    cases c with
    | nil => simp [readByte]
    | cons bt c1 =>
      simp only [readByte]
      have h1 := hs true c1 (by simp)
      cases h : seq true c1 with
      | error e => rw [h] at h1; simpa using h1
      | ok p =>
        obtain ⟨⟨thenB, t⟩, c2⟩ := p
        have l2 := (hl true c1 (thenB, t) c2 h).1
        cases t with
        | End => simp
        | Else =>
          simp only
          have h2 := hs false c2 (by simp; omega)
          cases h' : seq false c2 with
          | error e => rw [h'] at h2; simpa using h2
          | ok q => simp
  case ControlBr => exact br_loadBinary_settled Code c
  case ControlBrTable => exact brTable_loadBinary_settled Code c
  case ControlCall => exact call_loadBinary_settled Code c
  case ControlCallIndirect => exact call_loadBinary_settled Code c
  case Variable => exact variable_loadBinary_settled Code c
  case MemoryAccess => exact memory_loadBinary_settled Code c
  case MemorySizeGrow => exact memory_loadBinary_settled Code c
  case Const => exact const_loadBinary_settled Code c
  all_goals simp

/-- The sequence decoder never reports an exhausted recursion bound: each of
its results is a decoded sequence or one of the decode failures. -/
theorem decodeSequence_settled : ∀ (n : Nat) (a : Bool) (c : ByteCursor), c.length ≤ n →
    decodeSequence a c ≠ .error .OutOfFuel := by
  intro n
  induction n with
  | zero =>
    intro a c hc
    have : c = [] := List.length_eq_zero.mp (by omega)
    subst this
    simp [decodeSequence_nil]
  | succ k ih =>
    intro a c hc
    cases c with
    | nil => simp [decodeSequence_nil]
    | cons op c1 =>
      simp only [List.length_cons] at hc
      rw [decodeSequence_cons]
      split_ifs
      · simp
      · simp
      · have h1 := loadInstruction_settled decodeSequence decodeSequence_local op c1
          (fun a c' hc' => ih a c' (by omega))
        cases h : loadInstruction decodeSequence op c1 with
        | error e => rw [h] at h1; simpa using h1
        | ok p =>
          obtain ⟨ins, c2⟩ := p
          have l2 := (loadInstruction_local decodeSequence decodeSequence_local op c1 ins c2 h).1
          have h2 := ih a c2 (by omega)
          simp only
          cases h' : decodeSequence a c2 with
          | error e => rw [h'] at h2; simpa using h2
          | ok q => simp

theorem decodeSequence_total (a : Bool) (c : ByteCursor) :
    decodeSequence a c ≠ .error .OutOfFuel :=
  decodeSequence_settled c.length a c (Nat.le_refl _)

theorem block_loadBinary_total (Code : Byte) (c : ByteCursor) :
    BlockControlInstruction.loadBinary Code c ≠ .error .OutOfFuel := by
  unfold BlockControlInstruction.loadBinary BlockControlInstruction.load
  cases c with
  | nil => simp [readByte]
  | cons bt c1 =>
    simp only [readByte]
    have h1 := decodeSequence_total false c1
    cases h : decodeSequence false c1 with
    | error e => rw [h] at h1; simpa using h1
    | ok p => simp

theorem ifElse_loadBinary_total (Code : Byte) (c : ByteCursor) :
    IfElseControlInstruction.loadBinary Code c ≠ .error .OutOfFuel := by
  unfold IfElseControlInstruction.loadBinary IfElseControlInstruction.load
  cases c with
  | nil => simp [readByte]
  | cons bt c1 =>
    simp only [readByte]
    have h1 := decodeSequence_total true c1
    cases h : decodeSequence true c1 with
    | error e => rw [h] at h1; simpa using h1
    | ok p =>
      obtain ⟨⟨thenB, t⟩, c2⟩ := p
      cases t with
      | End => simp
      | Else =>
        simp only
        have h2 := decodeSequence_total false c2
        cases h' : decodeSequence false c2 with
        | error e => rw [h'] at h2; simpa using h2
        | ok q => simp

/-! ## Decoder: sequences -/

theorem loadInstruction_plain (seq : Bool → ByteCursor → SeqResult) (b : Byte) (c : ByteCursor)
    (h : classify b = .Plain) : loadInstruction seq b c = .ok (.plain b, c) := by
  simp [loadInstruction, h]

theorem decodeSequence_end (a : Bool) (op : Byte) (c : ByteCursor) (h : classify op = .ControlEnd) :
    decodeSequence a (op :: c) = .ok (([], .End), c) := by
  rw [decodeSequence_cons, if_pos h]

theorem decodeSequence_else (op : Byte) (c : ByteCursor) (h : classify op = .ControlElse) :
    decodeSequence true (op :: c) = .ok (([], .Else), c) := by
  rw [decodeSequence_cons, if_neg (by rw [h]; decide), if_pos ⟨h, rfl⟩]

theorem decodeSequence_step (a : Bool) (op : Byte) (c1 c2 : ByteCursor) (ins : Instruction)
    (h : loadInstruction decodeSequence op c1 = .ok (ins, c2)) :
    decodeSequence a (op :: c1) =
      match decodeSequence a c2 with
      | .error e => .error e
      | .ok ((more, t), c3) => .ok ((ins :: more, t), c3) := by
  have hE : classify op ≠ .ControlEnd := by
    intro hc; simp [loadInstruction, hc] at h
  have hL : ¬ (classify op = .ControlElse ∧ a = true) := by
    intro hc; simp [loadInstruction, hc.1] at h
  rw [decodeSequence_cons, if_neg hE, if_neg hL, h]
  try rfl

theorem decodeSequence_plain (a : Bool) (ops rest : List Byte)
    (h : ∀ b ∈ ops, classify b = .Plain) :
    decodeSequence a (ops ++ 0x0B :: rest) = .ok ((ops.map .plain, .End), rest) := by
  induction ops with
  | nil => exact decodeSequence_end a 0x0B rest (by decide)
  | cons b ops ih =>
    have hb := h b (List.mem_cons_self _ _)
    have ih' := ih (fun x hx => h x (List.mem_cons_of_mem _ hx))
    rw [List.cons_append, decodeSequence_step a b _ _ _ (loadInstruction_plain _ b _ hb), ih']
    rfl

/-- C6: a Block or Loop encoding made of one block-type byte, `n ≥ 0` opcodes
without immediates and a closing End byte `0x0B` decodes successfully into
exactly the `n` children in input order, and the cursor has advanced by exactly
`n + 2` bytes: every byte after the End is still unread (`n = 0` gives 2). -/
theorem block_loadBinary_plain (Code bt : Byte) (ops rest : List Byte)
    (h : ∀ b ∈ ops, classify b = .Plain) :
    BlockControlInstruction.loadBinary Code (bt :: (ops ++ 0x0B :: rest))
        = .ok (.block Code (BlockType.ofByte bt) (ops.map .plain), rest) ∧
      (ops.map Instruction.plain).length = ops.length ∧
      getRemainSize (bt :: (ops ++ 0x0B :: rest)) = getRemainSize rest + (ops.length + 2) := by
  refine ⟨?_, by simp, by simp [getRemainSize]; omega⟩
  simp [BlockControlInstruction.loadBinary, BlockControlInstruction.load, readByte,
    decodeSequence_plain false ops rest h]

/-- C6 evaluated: `[0x40, 0x45, 0x46, 0x47, 0x0B]` decodes as a Block with an
empty block type and three children, all 5 bytes consumed; `[0x40, 0x0B]`
decodes as a Loop without children. -/
theorem block_loadBinary_plain_witness :
    (∀ b ∈ ([0x45, 0x46, 0x47] : List Byte), classify b = .Plain) ∧
    BlockControlInstruction.loadBinary 0x02 [0x40, 0x45, 0x46, 0x47, 0x0B]
      = .ok (.block 0x02 .empty [.plain 0x45, .plain 0x46, .plain 0x47], []) ∧
    getRemainSize ([0x40, 0x45, 0x46, 0x47, 0x0B] : List Byte) = getRemainSize ([] : List Byte) + 5 ∧
    BlockControlInstruction.loadBinary 0x03 [0x40, 0x0B] = .ok (.block 0x03 .empty [], []) :=
  ⟨by decide,
   (block_loadBinary_plain 0x02 0x40 [0x45, 0x46, 0x47] [] (by decide)).1,
   (block_loadBinary_plain 0x02 0x40 [0x45, 0x46, 0x47] [] (by decide)).2.2,
   (block_loadBinary_plain 0x03 0x40 [] [] (by decide)).1⟩

theorem classify_reserved (b : Byte) (h1 : 0xED ≤ b.val) (h2 : b.val ≤ 0xEF) :
    classify b = .Invalid := by
  obtain ⟨n, hn⟩ := b
  simp only at h1 h2
  have : n = 0xED ∨ n = 0xEE ∨ n = 0xEF := by omega
  rcases this with rfl | rfl | rfl <;> rfl

theorem reachesInvalid_fails (a : Bool) (c : ByteCursor) (h : ReachesInvalid a c) :
    decodeSequence a c = .error .InvalidOpcode := by
  induction h with
  | here a b rest h1 h2 =>
    have hc := classify_reserved b h1 h2
    rw [decodeSequence_cons, if_neg (by rw [hc]; decide), if_neg (by rw [hc]; simp)]
    simp [loadInstruction, hc]
  | next a op c1 c2 ins hl _ ih =>
    rw [decodeSequence_step a op c1 c2 ins hl, ih]
  | inBlock a op bt c hc _ ih =>
    rw [decodeSequence_cons, if_neg (by rw [hc]; decide), if_neg (by rw [hc]; simp)]
    simp [loadInstruction, hc, BlockControlInstruction.load, readByte, ih]
  | inThen a op bt c hc _ ih =>
    rw [decodeSequence_cons, if_neg (by rw [hc]; decide), if_neg (by rw [hc]; simp)]
    simp [loadInstruction, hc, IfElseControlInstruction.load, readByte, ih]
  | inElse a op bt c c2 thenB hc hthen _ ih =>
    rw [decodeSequence_cons, if_neg (by rw [hc]; decide), if_neg (by rw [hc]; simp)]
    simp [loadInstruction, hc, IfElseControlInstruction.load, readByte, hthen, ih]

/-- C7: when an opcode position of the body of a Block or Loop, at any nesting
depth, holds a byte of the reserved range `0xED`-`0xEF`, `loadBinary` fails
with the invalid-opcode error and yields no instruction tree, whatever bytes
follow. -/
theorem block_loadBinary_invalid (Code bt : Byte) (c : ByteCursor) (h : ReachesInvalid false c) :
    BlockControlInstruction.loadBinary Code (bt :: c) = .error .InvalidOpcode ∧
    ∀ out, BlockControlInstruction.loadBinary Code (bt :: c) ≠ .ok out := by
  have e : BlockControlInstruction.loadBinary Code (bt :: c) = .error .InvalidOpcode := by
    simp [BlockControlInstruction.loadBinary, BlockControlInstruction.load, readByte,
      reachesInvalid_fails false c h]
  exact ⟨e, fun out ho => by rw [e] at ho; cases ho⟩



/-- C7 evaluated: the body `0x45 0x46 0x47 0xED 0xEE 0xEF 0x0B` of the unit test
fails, and so does a body whose reserved byte sits in a Loop inside the else
branch of an If. -/
theorem block_loadBinary_invalid_witness :
    ReachesInvalid false [0x45, 0x46, 0x47, 0xED, 0xEE, 0xEF, 0x0B] ∧
    BlockControlInstruction.loadBinary 0x02 [0x40, 0x45, 0x46, 0x47, 0xED, 0xEE, 0xEF, 0x0B]
      = .error .InvalidOpcode ∧
    ReachesInvalid false [0x45, 0x04, 0x40, 0x46, 0x05, 0x03, 0x40, 0xEE, 0x0B, 0x0B, 0x0B] ∧
    BlockControlInstruction.loadBinary 0x03
        [0x40, 0x45, 0x04, 0x40, 0x46, 0x05, 0x03, 0x40, 0xEE, 0x0B, 0x0B, 0x0B]
      = .error .InvalidOpcode :=
  have h1 : ReachesInvalid false [0x45, 0x46, 0x47, 0xED, 0xEE, 0xEF, 0x0B] :=
    .next _ 0x45 _ _ (.plain 0x45) rfl
      (.next _ 0x46 _ _ (.plain 0x46) rfl
        (.next _ 0x47 _ _ (.plain 0x47) rfl
          (.here _ 0xED _ (by decide) (by decide))))
  have h2 : ReachesInvalid false [0x45, 0x04, 0x40, 0x46, 0x05, 0x03, 0x40, 0xEE, 0x0B, 0x0B, 0x0B] :=
    .next _ 0x45 _ _ (.plain 0x45) rfl
      (.inElse _ 0x04 0x40 _ [0x03, 0x40, 0xEE, 0x0B, 0x0B, 0x0B] [.plain 0x46] rfl rfl
        (.inBlock _ 0x03 0x40 _ rfl (.here _ 0xEE _ (by decide) (by decide))))
  ⟨h1, (block_loadBinary_invalid 0x02 0x40 _ h1).1, h2, (block_loadBinary_invalid 0x03 0x40 _ h2).1⟩

/-! ## If -/

theorem decodeSeq_false_end : ∀ (f : Nat) (c r : ByteCursor) (is : List Instruction)
    (t : Terminator), decodeSeq f false c = .ok ((is, t), r) → t = .End := by
  intro f
  induction f with
  | zero => intro c r is t h; simp [decodeSeq] at h
  | succ n ih =>
    intro c r is t h
    rw [decodeSeq] at h
    cases c with
    | nil => simp [readByte] at h
    | cons op c1 =>
      simp only [readByte] at h
      split_ifs at h with hE hL
      · simp only [Except.ok.injEq, Prod.mk.injEq] at h
        exact h.1.2.symm
      · exact absurd hL.2 (by decide)
      · cases h2 : loadInstruction (decodeSeq n) op c1 with
        | error e => simp [h2] at h
        | ok q =>
          obtain ⟨ins, c2⟩ := q
          simp only [h2] at h
          cases h3 : decodeSeq n false c2 with
          | error e => simp [h3] at h
          | ok q3 =>
            obtain ⟨⟨more, t3⟩, c3⟩ := q3
            simp only [h3, Except.ok.injEq, Prod.mk.injEq] at h
            obtain ⟨⟨_, rfl⟩, _⟩ := h
            exact ih c2 c3 more t3 h3

theorem decodeSequence_false_end (c r : ByteCursor) (is : List Instruction) (t : Terminator)
    (h : decodeSequence false c = .ok ((is, t), r)) : t = .End :=
  decodeSeq_false_end _ c r is t h

/-- C8: `IfElseControlInstruction::loadBinary` succeeds exactly when the
`then`-bytes parse as a sequence and, if that sequence ended at an Else, the
`else`-bytes parse as a sequence ended by End.  First part: the two shapes of a
successful decode (no Else marker: empty else branch).  Second part: for an
encoding `blocktype, T, E` whose `then`-range `T` parses on its own up to its
final Else, the whole succeeds iff the `else`-range `E` parses on its own.
Third and fourth part: a branch that is only its terminator is empty. -/
theorem ifElse_loadBinary_iff (Code bt : Byte) :
    (∀ c out, IfElseControlInstruction.loadBinary Code (bt :: c) = .ok out ↔
      ((∃ thenB rest, decodeSequence true c = .ok ((thenB, .End), rest) ∧
          out = (.ifElse Code (BlockType.ofByte bt) thenB [], rest)) ∨
       (∃ thenB c2 elseB rest, decodeSequence true c = .ok ((thenB, .Else), c2) ∧
          decodeSequence false c2 = .ok ((elseB, .End), rest) ∧
          out = (.ifElse Code (BlockType.ofByte bt) thenB elseB, rest)))) ∧
    (∀ T E thenB, decodeSequence true T = .ok ((thenB, .Else), []) →
      ∀ out, IfElseControlInstruction.loadBinary Code (bt :: (T ++ E)) = .ok out ↔
        ∃ elseB rest, decodeSequence false E = .ok ((elseB, .End), rest) ∧
          out = (.ifElse Code (BlockType.ofByte bt) thenB elseB, rest)) ∧
    (∀ rest, IfElseControlInstruction.loadBinary Code (bt :: 0x05 :: 0x0B :: rest)
        = .ok (.ifElse Code (BlockType.ofByte bt) [] [], rest)) ∧
    (∀ rest, IfElseControlInstruction.loadBinary Code (bt :: 0x0B :: rest)
        = .ok (.ifElse Code (BlockType.ofByte bt) [] [], rest)) := by
  have main : ∀ c out, IfElseControlInstruction.loadBinary Code (bt :: c) = .ok out ↔
      ((∃ thenB rest, decodeSequence true c = .ok ((thenB, .End), rest) ∧
          out = (.ifElse Code (BlockType.ofByte bt) thenB [], rest)) ∨
       (∃ thenB c2 elseB rest, decodeSequence true c = .ok ((thenB, .Else), c2) ∧
          decodeSequence false c2 = .ok ((elseB, .End), rest) ∧
          out = (.ifElse Code (BlockType.ofByte bt) thenB elseB, rest))) := by
    intro c out
    simp only [IfElseControlInstruction.loadBinary, IfElseControlInstruction.load, readByte]
    cases h1 : decodeSequence true c with
    | error e => simp
    | ok q =>
      obtain ⟨⟨thenB, t⟩, c2⟩ := q
      cases t with
      | End =>
        constructor
        · intro h
          cases h
          exact Or.inl ⟨thenB, c2, rfl, rfl⟩
        · rintro (⟨tb, r, h, rfl⟩ | ⟨tb, r, eb, r2, h, _, _⟩)
          · cases h; rfl
          · cases h
      | Else =>
        simp only
        cases h2 : decodeSequence false c2 with
        | error e =>
          constructor
          · intro h; cases h
          · rintro (⟨tb, r, h, _⟩ | ⟨tb, r, eb, r2, h, h3, _⟩)
            · cases h
            · cases h; rw [h2] at h3; cases h3
        | ok q2 =>
          obtain ⟨⟨elseB, t2⟩, c3⟩ := q2
          have ht2 := decodeSequence_false_end c2 c3 elseB t2 h2
          subst ht2
          constructor
          · intro h
            cases h
            exact Or.inr ⟨thenB, c2, elseB, c3, rfl, h2, rfl⟩
          · rintro (⟨tb, r, h, _⟩ | ⟨tb, r, eb, r2, h, h3, rfl⟩)
            · cases h
            · cases h; rw [h2] at h3; cases h3; rfl
  refine ⟨main, ?_, ?_, ?_⟩
  · intro T E thenB hT out
    have hTE : decodeSequence true (T ++ E) = .ok ((thenB, .Else), E) := by
      have := (decodeSequence_local true T (thenB, .Else) [] hT).2 E
      simpa using this
    rw [main]
    constructor
    · rintro (⟨tb, r, h, _⟩ | ⟨tb, c2, eb, r, h, h2, rfl⟩)
      · rw [hTE] at h; simp at h
      · rw [hTE] at h
        simp only [Except.ok.injEq, Prod.mk.injEq] at h
        obtain ⟨⟨rfl, _⟩, rfl⟩ := h
        exact ⟨eb, r, h2, rfl⟩
    · rintro ⟨eb, r, h2, rfl⟩
      exact Or.inr ⟨thenB, E, eb, r, hTE, h2, rfl⟩
  · intro rest
    rw [main]
    exact Or.inr ⟨[], 0x0B :: rest, [], rest, decodeSequence_else 0x05 _ (by decide),
      decodeSequence_end false 0x0B _ (by decide), rfl⟩
  · intro rest
    rw [main]
    exact Or.inl ⟨[], rest, decodeSequence_end true 0x0B _ (by decide), rfl⟩



/-- C8 evaluated on the unit-test vectors: valid `then` and `else` ranges decode,
an invalid `else` range makes the whole If fail. -/
theorem ifElse_loadBinary_iff_witness :
    decodeSequence true [0x45, 0x46, 0x47, 0x05] = .ok (([.plain 0x45, .plain 0x46, .plain 0x47], .Else), []) ∧
    IfElseControlInstruction.loadBinary 0x04 [0x40, 0x45, 0x46, 0x47, 0x05, 0x45, 0x46, 0x47, 0x0B]
      = .ok (.ifElse 0x04 .empty [.plain 0x45, .plain 0x46, .plain 0x47]
              [.plain 0x45, .plain 0x46, .plain 0x47], []) ∧
    (∀ out, IfElseControlInstruction.loadBinary 0x04
        [0x40, 0x45, 0x46, 0x47, 0x05, 0xED, 0xEE, 0xEF, 0x0B] ≠ .ok out) :=
  ⟨rfl,
   ((ifElse_loadBinary_iff 0x04 0x40).2.1 [0x45, 0x46, 0x47, 0x05] [0x45, 0x46, 0x47, 0x0B]
      [.plain 0x45, .plain 0x46, .plain 0x47] rfl _).mpr
        ⟨[.plain 0x45, .plain 0x46, .plain 0x47], [], rfl, rfl⟩,
   fun out h => by
     obtain ⟨eb, r, h2, _⟩ :=
       ((ifElse_loadBinary_iff 0x04 0x40).2.1 [0x45, 0x46, 0x47, 0x05] [0xED, 0xEE, 0xEF, 0x0B]
         [.plain 0x45, .plain 0x46, .plain 0x47] rfl out).mp h
     exact absurd h2 (by
       rw [reachesInvalid_fails false _ (.here _ 0xED _ (by decide) (by decide))]
       exact fun h => by cases h)⟩

/-! ## BrTable -/

theorem readGroups_isVarint : ∀ (g : Nat) (enc rest : List Byte), isVarint g enc = true →
    readGroups g (enc ++ rest) = .ok (enc.map (fun b => b.val % 128), rest) := by
  intro g
  induction g with
  | zero => intro enc rest h; simp [isVarint] at h
  | succ n ih =>
    intro enc rest h
    match enc, h with
    | [b], h =>
      simp only [isVarint, decide_eq_true_eq] at h
      simp [readGroups, h, Nat.mod_eq_of_lt h]
    | b :: b2 :: tl, h =>
      simp only [isVarint, Bool.and_eq_true, decide_eq_true_eq] at h
      have hb : ¬ b.val < 128 := by omega
      show readGroups (n + 1) (b :: ((b2 :: tl) ++ rest)) = _
      simp only [readGroups, hb, if_false, ih (b2 :: tl) rest h.2, List.map_cons]

theorem readUnsignedVarint_isVarint (enc rest : List Byte) (h : isVarint 5 enc = true) :
    readUnsignedVarint 32 (enc ++ rest) = .ok (varintValue enc, rest) := by
  have : maxGroups 32 = 5 := rfl
  simp [readUnsignedVarint, this, readGroups_isVarint 5 enc rest h, varintValue]

theorem readElems_isVarint : ∀ (encs : List (List Byte)) (rest : List Byte),
    (∀ e ∈ encs, isVarint 5 e = true) →
    readElems (readUnsignedVarint 32) encs.length (encs.flatten ++ rest)
      = .ok (encs.map varintValue, rest) := by
  intro encs
  induction encs with
  | nil => intro rest _; rfl
  | cons e es ih =>
    intro rest h
    have he := h e (List.mem_cons_self _ _)
    have hes := ih rest (fun x hx => h x (List.mem_cons_of_mem _ hx))
    simp only [List.length_cons, List.flatten_cons, List.append_assoc, readElems,
      readUnsignedVarint_isVarint e _ he, hes, List.map_cons]

theorem flatten_length_five : ∀ (encs : List (List Byte)), (∀ e ∈ encs, e.length = 5) →
    encs.flatten.length = 5 * encs.length := by
  intro encs
  induction encs with
  | nil => intro _; rfl
  | cons e es ih =>
    intro h
    have he := h e (List.mem_cons_self _ _)
    have hes := ih (fun x hx => h x (List.mem_cons_of_mem _ hx))
    simp only [List.flatten_cons, List.length_append, List.length_cons, he, hes]
    omega

/-- C9: a BrTable encoding made of the one-byte count `N < 128`, `N` unsigned
32-bit label varints and one default label varint decodes successfully into a
jump table of exactly the `N` labels in input order plus the default label;
when all indices are 5-byte varints the cursor advances by `1 + 5N + 5`
bytes. -/
theorem brTable_loadBinary_table (Code : Byte) (encs : List (List Byte)) (encd rest : List Byte)
    (hN : encs.length < 128) (henc : ∀ e ∈ encs, isVarint 5 e = true)
    (hd : isVarint 5 encd = true) :
    BrTableControlInstruction.loadBinary Code (toByte encs.length :: (encs.flatten ++ (encd ++ rest)))
        = .ok (.brTable Code (encs.map varintValue) (varintValue encd), rest) ∧
      (encs.map varintValue).length = encs.length ∧
      ((∀ e ∈ encs, e.length = 5) → encd.length = 5 →
        getRemainSize (toByte encs.length :: (encs.flatten ++ (encd ++ rest)))
          = getRemainSize rest + (1 + 5 * encs.length + 5)) := by
  refine ⟨?_, by simp, ?_⟩
  · have hcount : readUnsignedVarint 32 (toByte encs.length :: (encs.flatten ++ (encd ++ rest)))
        = .ok (encs.length, encs.flatten ++ (encd ++ rest)) := by
      have hv : (toByte encs.length).val = encs.length := by
        simp only [toByte]; omega
      have hg : maxGroups 32 = 5 := rfl
      have hlt : encs.length < 4294967296 := by omega
      simp [readUnsignedVarint, hg, readGroups, hv, hN, groupsValue, Nat.mod_eq_of_lt hlt]
    simp only [BrTableControlInstruction.loadBinary, readVectorPrefixed, hcount,
      readElems_isVarint encs (encd ++ rest) henc, readUnsignedVarint_isVarint encd rest hd]
  · intro h5 hd5
    simp only [getRemainSize, List.length_cons, List.length_append, flatten_length_five encs h5, hd5]
    omega

/-! ## MemorySize and MemoryGrow -/

/-- C10: decoding MemorySize (`0x3F`) or MemoryGrow (`0x40`) with trailing byte
`b` succeeds iff `b = 0x00`, then consuming exactly that byte; any other value
fails with the malformed-sentinel error. -/
theorem memory_loadBinary_sizeGrow (Code : Byte) (hC : Code = 0x3F ∨ Code = 0x40) (b : Byte)
    (rest : ByteCursor) :
    ((∃ out, MemoryInstruction.loadBinary Code (b :: rest) = .ok out) ↔ b = 0x00) ∧
    (b = 0x00 → MemoryInstruction.loadBinary Code (b :: rest) = .ok (.memorySizeGrow Code 0x00, rest)) ∧
    (b ≠ 0x00 → MemoryInstruction.loadBinary Code (b :: rest) = .error .MalformedSentinel) := by
  have hc : classify Code = .MemorySizeGrow := by
    rcases hC with rfl | rfl <;> rfl
  have hv : b.val = 0 ↔ b = 0 := by
    constructor
    · intro h; exact Fin.ext h
    · intro h; rw [h]; rfl
  have hok : b = 0x00 → MemoryInstruction.loadBinary Code (b :: rest)
      = .ok (.memorySizeGrow Code 0x00, rest) := by
    intro h; subst h
    simp [MemoryInstruction.loadBinary, hc, readByte]
  have herr : b ≠ 0x00 → MemoryInstruction.loadBinary Code (b :: rest)
      = .error .MalformedSentinel := by
    intro h
    have : ¬ b.val = 0 := fun h0 => h (hv.mp h0)
    simp [MemoryInstruction.loadBinary, hc, readByte, this]
  refine ⟨⟨?_, fun h => ⟨_, hok h⟩⟩, hok, herr⟩
  rintro ⟨out, ho⟩
  by_contra hne
  rw [herr hne] at ho
  cases ho

/-- C9 evaluated on the unit-test vectors: three 5-byte labels and a default
label consume `1 + 5 * 3 + 5 = 21` bytes; the count `0` gives an empty table. -/
theorem brTable_loadBinary_table_witness :
    BrTableControlInstruction.loadBinary 0x0E
        [0x03, 0xF1, 0xFF, 0xFF, 0xFF, 0x0F, 0xF2, 0xFF, 0xFF, 0xFF, 0x0F,
         0xF3, 0xFF, 0xFF, 0xFF, 0x0F, 0xFF, 0xFF, 0xFF, 0xFF, 0x0F]
      = .ok (.brTable 0x0E [4294967281, 4294967282, 4294967283] 4294967295, []) ∧
    BrTableControlInstruction.loadBinary 0x0E [0x00, 0xFF, 0xFF, 0xFF, 0xFF, 0x0F]
      = .ok (.brTable 0x0E [] 4294967295, []) :=
  ⟨(brTable_loadBinary_table 0x0E
      [[0xF1, 0xFF, 0xFF, 0xFF, 0x0F], [0xF2, 0xFF, 0xFF, 0xFF, 0x0F],
       [0xF3, 0xFF, 0xFF, 0xFF, 0x0F]] [0xFF, 0xFF, 0xFF, 0xFF, 0x0F] []
      (by decide) (by decide) (by decide)).1,
   (brTable_loadBinary_table 0x0E [] [0xFF, 0xFF, 0xFF, 0xFF, 0x0F] []
      (by decide) (by decide) (by decide)).1⟩

/-- C10 evaluated: MemoryGrow followed by `0xFF` fails, followed by `0x00` it
succeeds with nothing left to read. -/
theorem memory_loadBinary_sizeGrow_witness :
    MemoryInstruction.loadBinary 0x40 [0xFF] = .error .MalformedSentinel ∧
    MemoryInstruction.loadBinary 0x40 [0x00] = .ok (.memorySizeGrow 0x40 0x00, []) :=
  ⟨(memory_loadBinary_sizeGrow 0x40 (Or.inr rfl) 0xFF []).2.2 (by decide),
   (memory_loadBinary_sizeGrow 0x40 (Or.inr rfl) 0x00 []).2.1 rfl⟩

/-! ## Bounds check, reusable form -/

theorem checkAccessBound_eq_decide (m : MemoryInstance) (Offset Length : Nat)
    (hO : Offset < U32) (hL : Length < U32) (hC : m.CurrPage < U32) :
    checkAccessBound m Offset Length = decide (Offset + Length ≤ m.CurrPage * 65536) := by
  unfold checkAccessBound kPageSize U64
  unfold U32 at hO hL hC
  have e1 : (Offset % 18446744073709551616 + Length % 18446744073709551616)
      % 18446744073709551616 = Offset + Length := by omega
  have e2 : m.CurrPage * 65536 % 18446744073709551616 = m.CurrPage * 65536 := by omega
  simp only [e1, e2]

/-! ## Page-count invariant -/

theorem growPage_fields (m : MemoryInstance) (Count : Nat) :
    (growPage m Count).2.HasMaxPage = m.HasMaxPage ∧
    (growPage m Count).2.MinPage = m.MinPage ∧
    (growPage m Count).2.MaxPage = m.MaxPage ∧
    (growPage m Count).2.DataPtr = m.DataPtr ∧
    (growPage m Count).2.Data = m.Data ∧
    (growPage m Count).2.Symbol = m.Symbol := by
  unfold growPage
  simp only
  split_ifs <;> exact ⟨rfl, rfl, rfl, rfl, rfl, rfl⟩

theorem effectiveCap_growPage (m : MemoryInstance) (Count : Nat) :
    effectiveCap (growPage m Count).2 = effectiveCap m := by
  obtain ⟨h1, _, h3, _⟩ := growPage_fields m Count
  unfold effectiveCap
  rw [h1, h3]

theorem growPage_le_cap (m : MemoryInstance) (Count : Nat)
    (h : m.CurrPage ≤ effectiveCap m) :
    (growPage m Count).2.CurrPage ≤ effectiveCap (growPage m Count).2 := by
  rw [effectiveCap_growPage]
  have e : (k4G / kPageSize) % U32 = 65536 := by decide
  unfold growPage
  simp only [e]
  unfold effectiveCap at h ⊢
  have hc : m.CurrPage + Count = Count + m.CurrPage := Nat.add_comm _ _
  cases hm : m.HasMaxPage <;> simp only [hm, if_true, if_false, Bool.false_eq_true] at h ⊢ <;>
    split_ifs with h1
  · exact h
  · simp only [hc]; exact Nat.le_of_not_gt h1
  · exact h
  · simp only [hc]; exact Nat.le_of_not_gt h1

/-- C12 refuted as stated: the constructor copies `min` into `CurrPage` without
looking at the cap, so the limit `(hasMax = false, min = 65537)` gives a state
with `CurrPage = 65537 > 65536`. -/
theorem ctor_breaks_cap :
    Reachable ⟨false, 65537, 0⟩ (mk0 ⟨false, 65537, 0⟩ 4096 zeroData) ∧
    ¬ ((mk0 ⟨false, 65537, 0⟩ 4096 zeroData).CurrPage
        ≤ effectiveCap (mk0 ⟨false, 65537, 0⟩ 4096 zeroData)) :=
  ⟨.init 4096 zeroData, by decide⟩

/-- C12 as amended: for every limit descriptor whose `min` does not exceed the
effective cap, the state the constructor leaves and every state reached from
it by `growPage` calls satisfy `CurrPage ≤ effectiveCap`. -/
theorem reachable_le_cap (Lim : Limit)
    (hmin : Lim.min ≤ (if Lim.hasMax then min Lim.max 65536 else 65536))
    (m : MemoryInstance) (h : Reachable Lim m) :
    m.CurrPage ≤ effectiveCap m := by
  induction h with
  | init Pages content => exact hmin
  | grow m Count _ _ ih => exact growPage_le_cap m Count ih

/-- C12 evaluated: a one-page memory grown by three pages has four pages, below
the cap. -/
theorem reachable_le_cap_witness :
    (1 : Nat) ≤ (if (⟨false, 1, 0⟩ : Limit).hasMax then min (⟨false, 1, 0⟩ : Limit).max 65536 else 65536) ∧
    Reachable ⟨false, 1, 0⟩ (growPage mem1 3).2 ∧
    (growPage mem1 3).2.CurrPage = 4 ∧
    (growPage mem1 3).2.CurrPage ≤ effectiveCap (growPage mem1 3).2 :=
  ⟨by decide, .grow mem1 3 (.init 4096 zeroData) (by decide), by decide,
   reachable_le_cap ⟨false, 1, 0⟩ (by decide) (growPage mem1 3).2
     (.grow mem1 3 (.init 4096 zeroData) (by decide))⟩

/-- C13 at the failing input: a one-page memory without a declared maximum
grows by `0xFFFFFFFF` pages; `growPage` returns true and `getDataPageSize()`
drops from `1` to `0`, which is neither at least the old value nor the old
value plus `Count`. -/
theorem growPage_shrinks :
    (growPage mem1 4294967295).1 = true ∧
    getDataPageSize mem1 = 1 ∧
    getDataPageSize (growPage mem1 4294967295).2 = 0 ∧
    ¬ (getDataPageSize (growPage mem1 4294967295).2 ≥ getDataPageSize mem1) ∧
    getDataPageSize (growPage mem1 4294967295).2 ≠ getDataPageSize mem1 + 4294967295 := by
  refine ⟨by decide, rfl, by decide, by decide, by decide⟩



/-! ## Source range of setBytes -/

/-- C14 at the failing input: in a memory of 65536 pages `setBytes` is called
with a two-byte slice, `Offset = 0`, `Start = 1` and `Length = 0xFFFFFFFF`.
The 32-bit sum `Start + Length` wraps to `0`, the source check passes and the
call returns success although `Start + Length > Slice.size()`: the copy reads
source index `2`, outside the slice. -/
theorem setBytes_source_wraps :
    mem64k.CurrPage ≤ effectiveCap mem64k ∧
    (∃ m', setBytes mem64k [0, 0] 0 1 4294967295 = .ok m') ∧
    ¬ (1 + 4294967295 ≤ ([0, 0] : List Byte).length) ∧
    (2 ∈ setBytesSrc 1 4294967295 ∧ ¬ (2 < ([0, 0] : List Byte).length)) := by
  exact ⟨by decide, ⟨_, rfl⟩, by decide, List.mem_range'_1.mpr ⟨by decide, by decide⟩, by decide⟩

/-! ## Raw pointers -/

/-- C15 at the failing input: `getPointer<uint64_t*>(0, 0x20000000)` on a
one-page memory.  `ByteSize = 8 * 0x20000000 = 2^32` becomes `0` when handed
to the `uint32_t` parameter of `checkAccessBound`, and the call returns the
base address although `0 + 2^32` bytes exceed the 65536 committed bytes. -/
theorem getPointer_narrows :
    getPointer mem1 8 0 536870912 = some (mem1.DataPtr + 0) ∧
    ¬ (0 + 536870912 * 8 ≤ mem1.CurrPage * 65536) := by
  refine ⟨by decide, by decide⟩

/-- C16 at the failing input: `getPointerOrNull<T*>(1)` on a one-page memory for
an element type of `2^32` bytes (`T = char (*)[4294967296]`).  The `size_t`
value `sizeof(T) = 2^32` becomes `0` when handed to the `uint32_t` parameter
`Length` of `checkAccessBound`, the check passes, and the call returns
`base + 1` although `1 + 2^32` bytes exceed the 65536 committed bytes. -/
theorem getPointerOrNull_narrows :
    getPointerOrNull mem1 4294967296 1 = some (mem1.DataPtr + 1) ∧
    (1 : Nat) ≠ 0 ∧
    ¬ (1 + 4294967296 ≤ mem1.CurrPage * 65536) := by
  refine ⟨by decide, by decide, by decide⟩

/-- Method `getPointerOrNull<T*>(Offset)` away from the narrowing: it returns
null for `Offset = 0`; for `Offset ≠ 0` it agrees with
`getPointer<T*>(Offset, 1)`, and for an element type whose size fits the
`uint32_t` parameter `Length` it returns `base + Offset` exactly when
`Offset + sizeof(T) ≤ CurrPage * 65536`, null otherwise. -/
theorem getPointerOrNull_iff (m : MemoryInstance) (sizeofT Offset : Nat)
    (hO : Offset < U32) (hC : m.CurrPage < U32) :
    (Offset = 0 → getPointerOrNull m sizeofT Offset = none) ∧
    (Offset ≠ 0 → getPointerOrNull m sizeofT Offset = getPointer m sizeofT Offset 1) ∧
    (Offset ≠ 0 → sizeofT < U32 →
      ((getPointerOrNull m sizeofT Offset = some (m.DataPtr + Offset)
          ↔ Offset + sizeofT ≤ m.CurrPage * 65536) ∧
       (¬ Offset + sizeofT ≤ m.CurrPage * 65536 → getPointerOrNull m sizeofT Offset = none))) := by
  refine ⟨?_, ?_, ?_⟩
  · intro h0
    simp [getPointerOrNull, h0]
  · intro h0
    simp [getPointerOrNull, getPointer, h0]
  · intro h0 hT
    have hn : (sizeofT % U64) % U32 = sizeofT := by
      unfold U32 at hT
      unfold U64 U32
      omega
    have hb := checkAccessBound_eq_decide m Offset sizeofT hO hT hC
    unfold getPointerOrNull
    rw [hn, hb]
    by_cases hin : Offset + sizeofT ≤ m.CurrPage * 65536 <;> simp [h0, hin]

/-- Method `getPointerOrNull<uint32_t*>` evaluated on a one-page memory based at
4096: offset 0 gives null, the last four bytes give `4096 + 65532`, one byte
further gives null. -/
theorem getPointerOrNull_iff_witness :
    getPointerOrNull mem1 4 0 = none ∧
    getPointerOrNull mem1 4 65532 = some (4096 + 65532) ∧
    getPointerOrNull mem1 4 65533 = none :=
  ⟨(getPointerOrNull_iff mem1 4 0 (by decide) (by decide)).1 rfl,
   ((getPointerOrNull_iff mem1 4 65532 (by decide) (by decide)).2.2 (by decide)
      (by decide)).1.mpr (by decide),
   ((getPointerOrNull_iff mem1 4 65533 (by decide) (by decide)).2.2 (by decide)
      (by decide)).2 (by decide)⟩

/-! ## Frame of growPage -/

/-- C17: `growPage`, whatever it returns, leaves the base address `DataPtr` (and
with it the value `setSymbol` publishes), the registered symbol, the limit
fields and every byte of the region unchanged; the state after the call is the
state before it with at most `CurrPage` replaced. -/
theorem growPage_frame (m : MemoryInstance) (Count S : Nat) :
    (growPage m Count).2.DataPtr = m.DataPtr ∧
    (setSymbol (growPage m Count).2 S).2 = (setSymbol m S).2 ∧
    getSymbol (growPage m Count).2 = getSymbol m ∧
    (growPage m Count).2.HasMaxPage = m.HasMaxPage ∧
    (growPage m Count).2.MinPage = m.MinPage ∧
    (growPage m Count).2.MaxPage = m.MaxPage ∧
    (∀ i, (growPage m Count).2.Data i = m.Data i) ∧
    (growPage m Count).2 = { m with CurrPage := (growPage m Count).2.CurrPage } := by
  obtain ⟨h1, h2, h3, h4, h5, h6⟩ := growPage_fields m Count
  refine ⟨h4, ?_, h6, h1, h2, h3, fun i => by rw [h5], ?_⟩
  · simp only [setSymbol, h4]
  · unfold growPage
    simp only
    split_ifs <;> rfl

/-! ## Out-of-bounds accesses -/

theorem checkAccessBound_false_of_gt (m : MemoryInstance) (Offset Length : Nat)
    (hO : Offset < U32) (hL : Length < U32) (hC : m.CurrPage < U32)
    (hout : Offset + Length > m.CurrPage * 65536) :
    checkAccessBound m Offset Length = false := by
  rw [checkAccessBound_eq_decide m Offset Length hO hL hC]
  exact decide_eq_false (by omega)

/-- C18: for 32-bit `Offset` and `Length` with
`Offset + Length > CurrPage * 65536`, each of `getBytes`, `setBytes`,
`getArray`, `setArray`, `loadValue` and `storeValue` returns
`MemoryOutOfBounds`, and the memory, the output buffer and the output value
are what they were before the call. -/
theorem accessors_out_of_bounds (m : MemoryInstance) (Offset Length : Nat)
    (hO : Offset < U32) (hL : Length < U32) (hC : m.CurrPage < U32)
    (hout : Offset + Length > m.CurrPage * 65536) :
    getBytes m Offset Length = .error ErrCode.MemoryOutOfBounds ∧
    (∀ Slice Start, setBytes m Slice Offset Start Length = .error ErrCode.MemoryOutOfBounds ∧
      after (setBytes m Slice Offset Start Length) m = m) ∧
    (∀ Arr IsReverse, getArray m Arr Offset Length IsReverse = .error ErrCode.MemoryOutOfBounds ∧
      after (getArray m Arr Offset Length IsReverse) Arr = Arr) ∧
    (∀ Arr IsReverse, setArray m Arr Offset Length IsReverse = .error ErrCode.MemoryOutOfBounds ∧
      after (setArray m Arr Offset Length IsReverse) m = m) ∧
    (∀ T Value, loadValue m T Value Offset Length = .error ErrCode.MemoryOutOfBounds ∧
      after (loadValue m T Value Offset Length) Value = Value) ∧
    (∀ T Value, storeValue m T Value Offset Length = .error ErrCode.MemoryOutOfBounds ∧
      after (storeValue m T Value Offset Length) m = m) := by
  have hb := checkAccessBound_false_of_gt m Offset Length hO hL hC hout
  have h1 : getBytes m Offset Length = .error ErrCode.MemoryOutOfBounds := by
    simp [getBytes, hb]
  have h2 : ∀ Slice Start,
      setBytes m Slice Offset Start Length = .error ErrCode.MemoryOutOfBounds := by
    intro Slice Start; simp [setBytes, hb]
  have h3 : ∀ Arr IsReverse,
      getArray m Arr Offset Length IsReverse = .error ErrCode.MemoryOutOfBounds := by
    intro Arr r; simp [getArray, hb]
  have h4 : ∀ Arr IsReverse,
      setArray m Arr Offset Length IsReverse = .error ErrCode.MemoryOutOfBounds := by
    intro Arr r; simp [setArray, hb]
  have h5 : ∀ T Value, loadValue m T Value Offset Length = .error ErrCode.MemoryOutOfBounds := by
    intro T Value; unfold loadValue; split_ifs <;> simp_all
  have h6 : ∀ T Value, storeValue m T Value Offset Length = .error ErrCode.MemoryOutOfBounds := by
    intro T Value; unfold storeValue; split_ifs <;> simp_all
  refine ⟨h1, fun s t => ⟨h2 s t, by rw [h2]; rfl⟩, fun a r => ⟨h3 a r, by rw [h3]; rfl⟩,
    fun a r => ⟨h4 a r, by rw [h4]; rfl⟩, fun T v => ⟨h5 T v, by rw [h5]; rfl⟩,
    fun T v => ⟨h6 T v, by rw [h6]; rfl⟩⟩

/-- C18 evaluated: two bytes at offset 65535 of a one-page memory are out of
bounds. -/
theorem accessors_out_of_bounds_witness :
    (65535 : Nat) + 2 > mem1.CurrPage * 65536 ∧
    getBytes mem1 65535 2 = .error ErrCode.MemoryOutOfBounds ∧
    loadValue mem1 .u32 7 65535 2 = .error ErrCode.MemoryOutOfBounds ∧
    after (loadValue mem1 .u32 7 65535 2) 7 = 7 :=
  ⟨by decide,
   (accessors_out_of_bounds mem1 65535 2 (by decide) (by decide) (by decide) (by decide)).1,
   ((accessors_out_of_bounds mem1 65535 2 (by decide) (by decide) (by decide)
      (by decide)).2.2.2.2.1 .u32 7).1,
   ((accessors_out_of_bounds mem1 65535 2 (by decide) (by decide) (by decide)
      (by decide)).2.2.2.2.1 .u32 7).2⟩

/-- C19: for every type `T`, every `Offset` and every `Length > sizeof(T)`,
`loadValue<T>` and `storeValue<T>` return `MemoryOutOfBounds`, whether or not
the range lies in the committed region, and leave the memory and the output
value unchanged. -/
theorem typed_length_too_long (m : MemoryInstance) (T : WasmType) (Value Offset Length : Nat)
    (h : Length > T.sizeof) :
    loadValue m T Value Offset Length = .error ErrCode.MemoryOutOfBounds ∧
    after (loadValue m T Value Offset Length) Value = Value ∧
    storeValue m T Value Offset Length = .error ErrCode.MemoryOutOfBounds ∧
    after (storeValue m T Value Offset Length) m = m := by
  have h1 : loadValue m T Value Offset Length = .error ErrCode.MemoryOutOfBounds := by
    simp [loadValue, h]
  have h2 : storeValue m T Value Offset Length = .error ErrCode.MemoryOutOfBounds := by
    simp [storeValue, h]
  exact ⟨h1, by rw [h1]; rfl, h2, by rw [h2]; rfl⟩

/-- C19 evaluated: five bytes for a `uint32_t` are refused inside the committed
region (offset 0) as well as outside it (offset 65535). -/
theorem typed_length_too_long_witness :
    (5 : Nat) > WasmType.u32.sizeof ∧
    checkAccessBound mem1 0 5 = true ∧
    loadValue mem1 .u32 7 0 5 = .error ErrCode.MemoryOutOfBounds ∧
    checkAccessBound mem1 65535 5 = false ∧
    storeValue mem1 .u32 7 65535 5 = .error ErrCode.MemoryOutOfBounds :=
  ⟨by decide, by decide, (typed_length_too_long mem1 .u32 7 0 5 (by decide)).1, by decide,
   (typed_length_too_long mem1 .u32 7 65535 5 (by decide)).2.2.1⟩

/-! ## Zero-length byte ranges -/

/-- C20 refuted as stated: `setBytes` with a one-byte slice, `Start = 1` and
`Length = 0` fails on the guard `Slice.size() > 0 && Start >= Slice.size()`,
although `Offset ≤ CurrPage * 65536` and `Start ≤ Slice.size()`. -/
theorem setBytes_empty_at_end :
    ¬ ((∃ m', setBytes mem1 [0] 0 1 0 = .ok m') ↔
        (0 ≤ mem1.CurrPage * 65536 ∧ 1 ≤ ([0] : List Byte).length)) := by
  intro h
  obtain ⟨m', hm⟩ := h.mpr ⟨by decide, by decide⟩
  have e : setBytes mem1 [0] 0 1 0 = .error ErrCode.MemoryOutOfBounds := rfl
  rw [e] at hm
  cases hm

/-- C20 as amended: with `Length = 0`, `getBytes(Offset, 0)` succeeds iff
`Offset ≤ CurrPage * 65536`; `setBytes(Slice, Offset, Start, 0)` succeeds iff
`Offset ≤ CurrPage * 65536` and `Start` is an index of the slice, or the slice
is empty and `Start = 0`; and `setBytes` changes no byte of the region. -/
theorem zero_length_ranges (m : MemoryInstance) (Slice : List Byte) (Offset Start : Nat)
    (hO : Offset < U32) (hS : Start < U32) (hC : m.CurrPage < U32) :
    ((∃ s, getBytes m Offset 0 = .ok s) ↔ Offset ≤ m.CurrPage * 65536) ∧
    ((∃ m', setBytes m Slice Offset Start 0 = .ok m') ↔
      (Offset ≤ m.CurrPage * 65536 ∧
        (Start < Slice.length ∨ (Start = 0 ∧ Slice.length = 0)))) ∧
    (∀ m', setBytes m Slice Offset Start 0 = .ok m' → m' = m) ∧
    after (setBytes m Slice Offset Start 0) m = m := by
  have hb := checkAccessBound_eq_decide m Offset 0 hO (by decide) hC
  simp only [Nat.add_zero] at hb
  have hmod : (Start + 0) % U32 = Start := by
    simp only [Nat.add_zero]; exact Nat.mod_eq_of_lt hS
  have hpure : ∀ m', setBytes m Slice Offset Start 0 = .ok m' → m' = m := by
    intro m' h
    unfold setBytes at h
    split_ifs at h with h1 h2 h3
    · exact absurd h3 (by decide)
    · cases h; rfl
  have key : ((decide (Slice.length > 0) && decide (Start ≥ Slice.length) ||
      decide (Start > Slice.length)) = true) ↔
      ¬ (Start < Slice.length ∨ (Start = 0 ∧ Slice.length = 0)) := by
    simp only [Bool.or_eq_true, Bool.and_eq_true, decide_eq_true_eq]
    omega
  refine ⟨?_, ?_, hpure, ?_⟩
  · unfold getBytes
    rw [hb]
    by_cases hin : Offset ≤ m.CurrPage * 65536 <;> simp [hin]
  · unfold setBytes
    rw [hb, hmod]
    by_cases hin : Offset ≤ m.CurrPage * 65536
    · by_cases hsrc : Start < Slice.length ∨ (Start = 0 ∧ Slice.length = 0)
      · have hc : ¬ ((decide (Slice.length > 0) && decide (Start ≥ Slice.length) ||
            decide (Start > Slice.length)) = true) := fun hcond => key.mp hcond hsrc
        simp only [decide_eq_true hin, Bool.not_true, Bool.false_eq_true, if_false, hc,
          Nat.lt_irrefl, gt_iff_lt]
        exact ⟨fun _ => ⟨hin, hsrc⟩, fun _ => ⟨m, rfl⟩⟩
      · have hc := key.mpr hsrc
        simp only [decide_eq_true hin, Bool.not_true, Bool.false_eq_true, if_false, hc, if_true]
        exact ⟨fun ⟨_, h⟩ => (by cases h), fun h => absurd h.2 hsrc⟩
    · simp only [decide_eq_false hin, Bool.not_false, if_true]
      exact ⟨fun ⟨_, h⟩ => (by cases h), fun h => absurd h.1 hin⟩
  · cases h : setBytes m Slice Offset Start 0 with
    | error e => rfl
    | ok m' => exact hpure m' h

/-- C20 evaluated: an empty range at the very end of a one-page memory is
accepted, one byte further it is refused. -/
theorem zero_length_ranges_witness :
    (∃ m', setBytes mem1 [0] 65536 0 0 = .ok m') ∧
    ¬ (∃ m', setBytes mem1 [0] 65537 0 0 = .ok m') ∧
    (∃ s, getBytes mem1 65536 0 = .ok s) :=
  ⟨(zero_length_ranges mem1 [0] 65536 0 (by decide) (by decide) (by decide)).2.1.mpr
      ⟨by decide, Or.inl (by decide)⟩,
   fun h => absurd
     ((zero_length_ranges mem1 [0] 65537 0 (by decide) (by decide) (by decide)).2.1.mp h).1
     (by decide),
   (zero_length_ranges mem1 [0] 65536 0 (by decide) (by decide) (by decide)).1.mpr (by decide)⟩

/-! ## Decoder: cut input is reported as truncated -/

theorem readByte_cut : PrefixTruncated readByte := by
  intro c E v r h
  cases c with
  | nil => exact Or.inl rfl
  | cons b rest =>
    simp only [List.cons_append, readByte, Except.ok.injEq, Prod.mk.injEq] at h
    obtain ⟨rfl, rfl⟩ := h
    exact Or.inr ⟨rest, rfl, rfl⟩

theorem readGroups_cut : ∀ g, PrefixTruncated (readGroups g) := by
  intro g
  induction g with
  | zero => intro c E v r h; simp [readGroups] at h
  | succ n ih =>
    intro c E v r h
    cases c with
    | nil => exact Or.inl rfl
    | cons b rest =>
      replace h : readGroups (n + 1) (b :: (rest ++ E)) = .ok (v, r) := h
      simp only [readGroups] at h ⊢
      split_ifs at h ⊢ with hb
      · simp only [Except.ok.injEq, Prod.mk.injEq] at h
        obtain ⟨rfl, rfl⟩ := h
        exact Or.inr ⟨rest, rfl, rfl⟩
      · cases hr : readGroups n (rest ++ E) with
        | error e => simp [hr] at h
        | ok p =>
          obtain ⟨gs, r1⟩ := p
          simp only [hr, Except.ok.injEq, Prod.mk.injEq] at h
          obtain ⟨rfl, rfl⟩ := h
          rcases ih rest E gs r1 hr with h0 | ⟨r0, h0, rfl⟩
          · left; simp [h0]
          · right; exact ⟨r0, by simp [h0], rfl⟩

theorem readUnsignedVarint_cut (maxBits : Nat) : PrefixTruncated (readUnsignedVarint maxBits) := by
  intro c E v r h
  unfold readUnsignedVarint at h ⊢
  cases hr : readGroups (maxGroups maxBits) (c ++ E) with
  | error e => simp [hr] at h
  | ok p =>
    obtain ⟨gs, r1⟩ := p
    simp only [hr, Except.ok.injEq, Prod.mk.injEq] at h
    obtain ⟨rfl, rfl⟩ := h
    rcases readGroups_cut _ c E gs r1 hr with h0 | ⟨r0, h0, rfl⟩
    · left; simp [h0]
    · right; exact ⟨r0, by simp [h0], rfl⟩

theorem readSignedVarint_cut (maxBits : Nat) : PrefixTruncated (readSignedVarint maxBits) := by
  intro c E v r h
  unfold readSignedVarint at h ⊢
  cases hr : readGroups (maxGroups maxBits) (c ++ E) with
  | error e => simp [hr] at h
  | ok p =>
    obtain ⟨gs, r1⟩ := p
    simp only [hr, Except.ok.injEq, Prod.mk.injEq] at h
    obtain ⟨rfl, rfl⟩ := h
    rcases readGroups_cut _ c E gs r1 hr with h0 | ⟨r0, h0, rfl⟩
    · left; simp [h0]
    · right; exact ⟨r0, by simp [h0], rfl⟩

theorem readRawLittleEndian_cut (width : Nat) : PrefixTruncated (readRawLittleEndian width) := by
  intro c E v r h
  unfold readRawLittleEndian at h ⊢
  split_ifs at h with hw
  simp only [Except.ok.injEq, Prod.mk.injEq] at h
  obtain ⟨rfl, rfl⟩ := h
  by_cases hc : c.length < width
  · left; simp [hc]
  · right
    have hw' : width ≤ c.length := by omega
    refine ⟨c.drop width, ?_, ?_⟩
    · simp only [hc, if_false]
      rw [List.take_append_of_le_length hw']
    · rw [List.drop_append_of_le_length hw']

theorem readElems_cut {α : Type} (R : ByteCursor → Read α) (hR : PrefixTruncated R) :
    ∀ n, PrefixTruncated (readElems R n) := by
  intro n
  induction n with
  | zero =>
    intro c E v r h
    simp only [readElems, Except.ok.injEq, Prod.mk.injEq] at h
    obtain ⟨rfl, rfl⟩ := h
    exact Or.inr ⟨c, rfl, rfl⟩
  | succ k ih =>
    intro c E v r h
    simp only [readElems] at h ⊢
    cases h1 : R (c ++ E) with
    | error e => simp [h1] at h
    | ok p =>
      obtain ⟨x, c1⟩ := p
      simp only [h1] at h
      rcases hR c E x c1 h1 with h0 | ⟨r0, h0, rfl⟩
      · left; simp [h0]
      · cases h2 : readElems R k (r0 ++ E) with
        | error e => simp [h2] at h
        | ok q =>
          obtain ⟨xs, c2⟩ := q
          simp only [h2, Except.ok.injEq, Prod.mk.injEq] at h
          obtain ⟨rfl, rfl⟩ := h
          rcases ih r0 E xs c2 h2 with h3 | ⟨r1, h3, rfl⟩
          · left; simp [h0, h3]
          · right; exact ⟨r1, by simp [h0, h3], rfl⟩

theorem readVectorPrefixed_cut {α : Type} (R : ByteCursor → Read α) (hR : PrefixTruncated R) :
    PrefixTruncated (readVectorPrefixed R) := by
  intro c E v r h
  unfold readVectorPrefixed at h ⊢
  cases h1 : readUnsignedVarint 32 (c ++ E) with
  | error e => simp [h1] at h
  | ok p =>
    obtain ⟨n, c1⟩ := p
    simp only [h1] at h
    rcases readUnsignedVarint_cut 32 c E n c1 h1 with h0 | ⟨r0, h0, rfl⟩
    · left; simp [h0]
    · rcases readElems_cut R hR n r0 E v r h with h3 | ⟨r1, h3, rfl⟩
      · left; simp [h0, h3]
      · right; exact ⟨r1, by simp [h0, h3], rfl⟩

theorem br_loadBinary_cut (Code : Byte) : PrefixTruncated (BrControlInstruction.loadBinary Code) := by
  intro c E v r h
  unfold BrControlInstruction.loadBinary at h ⊢
  cases h1 : readUnsignedVarint 32 (c ++ E) with
  | error e => simp [h1] at h
  | ok p =>
    obtain ⟨n, c1⟩ := p
    simp only [h1, Except.ok.injEq, Prod.mk.injEq] at h
    obtain ⟨rfl, rfl⟩ := h
    rcases readUnsignedVarint_cut 32 c E n c1 h1 with h0 | ⟨r0, h0, rfl⟩
    · left; simp [h0]
    · right; exact ⟨r0, by simp [h0], rfl⟩

theorem variable_loadBinary_cut (Code : Byte) :
    PrefixTruncated (VariableInstruction.loadBinary Code) := by
  intro c E v r h
  unfold VariableInstruction.loadBinary at h ⊢
  cases h1 : readUnsignedVarint 32 (c ++ E) with
  | error e => simp [h1] at h
  | ok p =>
    obtain ⟨n, c1⟩ := p
    simp only [h1, Except.ok.injEq, Prod.mk.injEq] at h
    obtain ⟨rfl, rfl⟩ := h
    rcases readUnsignedVarint_cut 32 c E n c1 h1 with h0 | ⟨r0, h0, rfl⟩
    · left; simp [h0]
    · right; exact ⟨r0, by simp [h0], rfl⟩

theorem brTable_loadBinary_cut (Code : Byte) :
    PrefixTruncated (BrTableControlInstruction.loadBinary Code) := by
  intro c E v r h
  unfold BrTableControlInstruction.loadBinary at h ⊢
  cases h1 : readVectorPrefixed (readUnsignedVarint 32) (c ++ E) with
  | error e => simp [h1] at h
  | ok p =>
    obtain ⟨tbl, c1⟩ := p
    simp only [h1] at h
    rcases readVectorPrefixed_cut _ (readUnsignedVarint_cut 32) c E tbl c1 h1 with
      h0 | ⟨r0, h0, rfl⟩
    · left; simp [h0]
    · cases h2 : readUnsignedVarint 32 (r0 ++ E) with
      | error e => simp [h2] at h
      | ok q =>
        obtain ⟨l, c2⟩ := q
        simp only [h2, Except.ok.injEq, Prod.mk.injEq] at h
        obtain ⟨rfl, rfl⟩ := h
        rcases readUnsignedVarint_cut 32 r0 E l c2 h2 with h3 | ⟨r1, h3, rfl⟩
        · left; simp [h0, h3]
        · right; exact ⟨r1, by simp [h0, h3], rfl⟩

theorem call_loadBinary_cut (Code : Byte) :
    PrefixTruncated (CallControlInstruction.loadBinary Code) := by
  intro c E v r h
  unfold CallControlInstruction.loadBinary at h ⊢
  cases h1 : readUnsignedVarint 32 (c ++ E) with
  | error e => simp [h1] at h
  | ok p =>
    obtain ⟨n, c1⟩ := p
    simp only [h1] at h
    rcases readUnsignedVarint_cut 32 c E n c1 h1 with h0 | ⟨r0, h0, rfl⟩
    · left; simp [h0]
    · split_ifs at h with hc
      · cases h2 : readByte (r0 ++ E) with
        | error e => simp [h2] at h
        | ok q =>
          obtain ⟨b, c2⟩ := q
          simp only [h2, Except.ok.injEq, Prod.mk.injEq] at h
          obtain ⟨rfl, rfl⟩ := h
          rcases readByte_cut r0 E b c2 h2 with h3 | ⟨r1, h3, rfl⟩
          · left; simp [h0, h3, hc]
          · right; exact ⟨r1, by simp [h0, h3, hc], rfl⟩
      · simp only [Except.ok.injEq, Prod.mk.injEq] at h
        obtain ⟨rfl, rfl⟩ := h
        right; exact ⟨r0, by simp [h0, hc], rfl⟩

theorem memory_loadBinary_cut (Code : Byte) :
    PrefixTruncated (MemoryInstruction.loadBinary Code) := by
  intro c E v r h
  unfold MemoryInstruction.loadBinary at h ⊢
  split_ifs at h ⊢ with hc
  · cases h1 : readByte (c ++ E) with
    | error e => simp [h1] at h
    | ok q =>
      obtain ⟨b, c1⟩ := q
      simp only [h1] at h
      split_ifs at h with hz
      simp only [Except.ok.injEq, Prod.mk.injEq] at h
      obtain ⟨rfl, rfl⟩ := h
      rcases readByte_cut c E b c1 h1 with h0 | ⟨r0, h0, rfl⟩
      · left; simp [h0]
      · right; exact ⟨r0, by simp [h0, hz], rfl⟩
  · cases h1 : readUnsignedVarint 32 (c ++ E) with
    | error e => simp [h1] at h
    | ok p =>
      obtain ⟨al, c1⟩ := p
      simp only [h1] at h
      rcases readUnsignedVarint_cut 32 c E al c1 h1 with h0 | ⟨r0, h0, rfl⟩
      · left; simp [h0]
      · cases h2 : readUnsignedVarint 32 (r0 ++ E) with
        | error e => simp [h2] at h
        | ok q =>
          obtain ⟨off, c2⟩ := q
          simp only [h2, Except.ok.injEq, Prod.mk.injEq] at h
          obtain ⟨rfl, rfl⟩ := h
          rcases readUnsignedVarint_cut 32 r0 E off c2 h2 with h3 | ⟨r1, h3, rfl⟩
          · left; simp [h0, h3]
          · right; exact ⟨r1, by simp [h0, h3], rfl⟩

theorem const_loadBinary_cut (Code : Byte) :
    PrefixTruncated (ConstInstruction.loadBinary Code) := by
  intro c E v r h
  unfold ConstInstruction.loadBinary at h ⊢
  split_ifs at h ⊢ with hc1 hc2 hc3
  · cases h1 : readSignedVarint 32 (c ++ E) with
    | error e => simp [h1] at h
    | ok p =>
      obtain ⟨n, c1⟩ := p
      simp only [h1, Except.ok.injEq, Prod.mk.injEq] at h
      obtain ⟨rfl, rfl⟩ := h
      rcases readSignedVarint_cut 32 c E n c1 h1 with h0 | ⟨r0, h0, rfl⟩
      · left; simp [h0]
      · right; exact ⟨r0, by simp [h0], rfl⟩
  · cases h1 : readSignedVarint 64 (c ++ E) with
    | error e => simp [h1] at h
    | ok p =>
      obtain ⟨n, c1⟩ := p
      simp only [h1, Except.ok.injEq, Prod.mk.injEq] at h
      obtain ⟨rfl, rfl⟩ := h
      rcases readSignedVarint_cut 64 c E n c1 h1 with h0 | ⟨r0, h0, rfl⟩
      · left; simp [h0]
      · right; exact ⟨r0, by simp [h0], rfl⟩
  · cases h1 : readRawLittleEndian 4 (c ++ E) with
    | error e => simp [h1] at h
    | ok p =>
      obtain ⟨n, c1⟩ := p
      simp only [h1, Except.ok.injEq, Prod.mk.injEq] at h
      obtain ⟨rfl, rfl⟩ := h
      rcases readRawLittleEndian_cut 4 c E n c1 h1 with h0 | ⟨r0, h0, rfl⟩
      · left; simp [h0]
      · right; exact ⟨r0, by simp [h0], rfl⟩
  · cases h1 : readRawLittleEndian 8 (c ++ E) with
    | error e => simp [h1] at h
    | ok p =>
      obtain ⟨n, c1⟩ := p
      simp only [h1, Except.ok.injEq, Prod.mk.injEq] at h
      obtain ⟨rfl, rfl⟩ := h
      rcases readRawLittleEndian_cut 8 c E n c1 h1 with h0 | ⟨r0, h0, rfl⟩
      · left; simp [h0]
      · right; exact ⟨r0, by simp [h0], rfl⟩

theorem block_load_cut (seq : Bool → ByteCursor → SeqResult)
    (hs : ∀ a, PrefixTruncated (seq a)) (Code : Byte) :
    PrefixTruncated (BlockControlInstruction.load seq Code) := by
  intro c E v r h
  unfold BlockControlInstruction.load at h ⊢
  cases h1 : readByte (c ++ E) with
  | error e => simp [h1] at h
  | ok p =>
    obtain ⟨bt, c1⟩ := p
    simp only [h1] at h
    rcases readByte_cut c E bt c1 h1 with h0 | ⟨r0, h0, rfl⟩
    · left; simp [h0]
    · cases h2 : seq false (r0 ++ E) with
      | error e => simp [h2] at h
      | ok q =>
        obtain ⟨⟨body, t⟩, c2⟩ := q
        simp only [h2, Except.ok.injEq, Prod.mk.injEq] at h
        obtain ⟨rfl, rfl⟩ := h
        rcases hs false r0 E (body, t) c2 h2 with h3 | ⟨r1, h3, rfl⟩
        · left; simp [h0, h3]
        · right; exact ⟨r1, by simp [h0, h3], rfl⟩

theorem ifElse_load_cut (seq : Bool → ByteCursor → SeqResult)
    (hs : ∀ a, PrefixTruncated (seq a)) (Code : Byte) :
    PrefixTruncated (IfElseControlInstruction.load seq Code) := by
  intro c E v r h
  unfold IfElseControlInstruction.load at h ⊢
  cases h1 : readByte (c ++ E) with
  | error e => simp [h1] at h
  | ok p =>
    obtain ⟨bt, c1⟩ := p
    simp only [h1] at h
    rcases readByte_cut c E bt c1 h1 with h0 | ⟨r0, h0, rfl⟩
    · left; simp [h0]
    · cases h2 : seq true (r0 ++ E) with
      | error e => simp [h2] at h
      | ok q =>
        obtain ⟨⟨thenB, t⟩, c2⟩ := q
        rcases hs true r0 E (thenB, t) c2 h2 with h3 | ⟨r1, h3, rfl⟩
        · left; simp [h0, h3]
        · cases t with
          | End =>
            simp only [h2, Except.ok.injEq, Prod.mk.injEq] at h
            obtain ⟨rfl, rfl⟩ := h
            right; exact ⟨r1, by simp [h0, h3], rfl⟩
          | Else =>
            simp only [h2] at h
            cases h4 : seq false (r1 ++ E) with
            | error e => simp [h4] at h
            | ok q4 =>
              obtain ⟨⟨elseB, t4⟩, c3⟩ := q4
              simp only [h4, Except.ok.injEq, Prod.mk.injEq] at h
              obtain ⟨rfl, rfl⟩ := h
              rcases hs false r1 E (elseB, t4) c3 h4 with h5 | ⟨r2, h5, rfl⟩
              · left; simp [h0, h3, h5]
              · right; exact ⟨r2, by simp [h0, h3, h5], rfl⟩



theorem loadInstruction_cut (seq : Bool → ByteCursor → SeqResult)
    (hs : ∀ a, PrefixTruncated (seq a)) (Code : Byte) :
    PrefixTruncated (loadInstruction seq Code) := by
  intro c E v r h
  have key : ∀ (R : ByteCursor → Read Instruction), PrefixTruncated R →
      loadInstruction seq Code = R →
      loadInstruction seq Code c = .error .Truncated ∨
        ∃ r0, loadInstruction seq Code c = .ok (v, r0) ∧ r = r0 ++ E := by
    intro R hR e
    rw [e] at h ⊢
    exact hR c E v r h
  cases hc : classify Code
  case ControlBlock =>
    exact key _ (block_load_cut seq hs Code) (by funext x; simp [loadInstruction, hc])
  case ControlIfElse =>
    exact key _ (ifElse_load_cut seq hs Code) (by funext x; simp [loadInstruction, hc])
  case ControlBr =>
    exact key _ (br_loadBinary_cut Code) (by funext x; simp [loadInstruction, hc])
  case ControlBrTable =>
    exact key _ (brTable_loadBinary_cut Code) (by funext x; simp [loadInstruction, hc])
  case ControlCall =>
    exact key _ (call_loadBinary_cut Code) (by funext x; simp [loadInstruction, hc])
  case ControlCallIndirect =>
    exact key _ (call_loadBinary_cut Code) (by funext x; simp [loadInstruction, hc])
  case Variable =>
    exact key _ (variable_loadBinary_cut Code) (by funext x; simp [loadInstruction, hc])
  case MemoryAccess =>
    exact key _ (memory_loadBinary_cut Code) (by funext x; simp [loadInstruction, hc])
  case MemorySizeGrow =>
    exact key _ (memory_loadBinary_cut Code) (by funext x; simp [loadInstruction, hc])
  case Const =>
    exact key _ (const_loadBinary_cut Code) (by funext x; simp [loadInstruction, hc])
  case Plain =>
    simp only [loadInstruction, hc, Except.ok.injEq, Prod.mk.injEq] at h
    obtain ⟨rfl, rfl⟩ := h
    exact Or.inr ⟨c, by simp [loadInstruction, hc], rfl⟩
  case ControlElse => simp [loadInstruction, hc] at h
  case ControlEnd => simp [loadInstruction, hc] at h
  case Invalid => simp [loadInstruction, hc] at h

theorem decodeSeq_cut : ∀ (f : Nat) (a : Bool), PrefixTruncated (decodeSeq f a) := by
  intro f
  induction f with
  | zero => intro a c E v r h; simp [decodeSeq] at h
  | succ n ih =>
    intro a c E v r h
    cases c with
    | nil => exact Or.inl rfl
    | cons op c1 =>
      replace h : decodeSeq (n + 1) a (op :: (c1 ++ E)) = .ok (v, r) := h
      rw [decodeSeq] at h ⊢
      simp only [readByte] at h ⊢
      split_ifs at h ⊢ with hE hL
      · simp only [Except.ok.injEq, Prod.mk.injEq] at h
        obtain ⟨rfl, rfl⟩ := h
        exact Or.inr ⟨c1, rfl, rfl⟩
      · simp only [Except.ok.injEq, Prod.mk.injEq] at h
        obtain ⟨rfl, rfl⟩ := h
        exact Or.inr ⟨c1, rfl, rfl⟩
      · cases h2 : loadInstruction (decodeSeq n) op (c1 ++ E) with
        | error e => simp [h2] at h
        | ok q =>
          obtain ⟨ins, c2⟩ := q
          simp only [h2] at h
          rcases loadInstruction_cut (decodeSeq n) ih op c1 E ins c2 h2 with h0 | ⟨r0, h0, rfl⟩
          · left; simp [h0]
          · cases h3 : decodeSeq n a (r0 ++ E) with
            | error e => simp [h3] at h
            | ok q3 =>
              obtain ⟨⟨more, t⟩, c3⟩ := q3
              simp only [h3, Except.ok.injEq, Prod.mk.injEq] at h
              obtain ⟨rfl, rfl⟩ := h
              rcases ih a r0 E (more, t) c3 h3 with h4 | ⟨r1, h4, rfl⟩
              · left; simp [h0, h4]
              · right; exact ⟨r1, by simp [h0, h4], rfl⟩

theorem decodeSequence_cut (a : Bool) : PrefixTruncated (decodeSequence a) := by
  intro c E v r h
  have h' : decodeSeq ((c ++ E).length + 1) a (c ++ E) = .ok (v, r) := h
  have e : decodeSeq ((c ++ E).length + 1) a c = decodeSequence a c :=
    decodeSeq_eq_decodeSequence _ a c (by simp; omega)
  rw [← e]
  exact decodeSeq_cut _ a c E v r h'

theorem variant_loadBinary_cut (V : Variant) (Code : Byte) :
    PrefixTruncated (V.loadBinary Code) := by
  cases V
  · exact block_load_cut decodeSequence decodeSequence_cut Code
  · exact ifElse_load_cut decodeSequence decodeSequence_cut Code
  · exact br_loadBinary_cut Code
  · exact brTable_loadBinary_cut Code
  · exact call_loadBinary_cut Code
  · exact variable_loadBinary_cut Code
  · exact memory_loadBinary_cut Code
  · exact const_loadBinary_cut Code

/-- C11: for every instruction variant and every opcode, `loadBinary` fails
with Truncated on the empty cursor, and whenever it decodes `p ++ E` and the
bytes it consumed reach into `E`, it fails with Truncated on the cut input
`p`. -/
theorem loadBinary_truncated (V : Variant) (Code : Byte) :
    V.loadBinary Code [] = .error .Truncated ∧
    ∀ (p E : ByteCursor) (out : Instruction) (rest : ByteCursor),
      V.loadBinary Code (p ++ E) = .ok (out, rest) → rest.length < E.length →
      V.loadBinary Code p = .error .Truncated := by
  constructor
  · cases V
    · rfl
    · rfl
    · rfl
    · rfl
    · rfl
    · rfl
    · simp only [Variant.loadBinary, MemoryInstruction.loadBinary]
      split_ifs <;> rfl
    · simp only [Variant.loadBinary, ConstInstruction.loadBinary]
      split_ifs <;> rfl
  · intro p E out rest h hlt
    rcases variant_loadBinary_cut V Code p E out rest h with h0 | ⟨r0, _, rfl⟩
    · exact h0
    · simp only [List.length_append] at hlt
      omega

/-- C11 evaluated: a CallIndirect type index without its trailing byte and a
Block without its End are truncated. -/
theorem loadBinary_truncated_witness :
    CallControlInstruction.loadBinary 0x11 [0xFF, 0xFF, 0xFF, 0xFF, 0x0F, 0x00]
      = .ok (.callIndirect 0x11 4294967295 0x00, []) ∧
    CallControlInstruction.loadBinary 0x11 [0xFF, 0xFF, 0xFF, 0xFF, 0x0F] = .error .Truncated ∧
    BlockControlInstruction.loadBinary 0x02 [0x40, 0x45, 0x0B]
      = .ok (.block 0x02 .empty [.plain 0x45], []) ∧
    BlockControlInstruction.loadBinary 0x02 [0x40, 0x45] = .error .Truncated ∧
    BlockControlInstruction.loadBinary 0x03 [] = .error .Truncated :=
  ⟨rfl,
   (loadBinary_truncated .Call 0x11).2 [0xFF, 0xFF, 0xFF, 0xFF, 0x0F] [0x00]
     (.callIndirect 0x11 4294967295 0x00) [] rfl (by decide),
   rfl,
   (loadBinary_truncated .Block 0x02).2 [0x40, 0x45] [0x0B]
     (.block 0x02 .empty [.plain 0x45]) [] rfl (by decide),
   (loadBinary_truncated .Block 0x03).1⟩

/-! ## Arrays -/

theorem setArray_ok (m : MemoryInstance) (A : Nat → Byte) (Offset Length : Nat) (r : Bool)
    (hB : checkAccessBound m Offset Length = true) (hL : Length > 0) :
    setArray m A Offset Length r = .ok { m with Data := (fun i =>
      if Offset ≤ i ∧ i < Offset + Length then
        (if r then A (Length - 1 - (i - Offset)) else A (i - Offset))
      else m.Data i) } := by
  cases r <;> simp [setArray, hB, hL]

theorem getArray_ok (m : MemoryInstance) (B : Nat → Byte) (Offset Length : Nat) (r : Bool)
    (hB : checkAccessBound m Offset Length = true) (hL : Length > 0) :
    getArray m B Offset Length r = .ok (fun i =>
      if i < Length then
        (if r then m.Data (Offset + (Length - 1 - i)) else m.Data (Offset + i))
      else B i) := by
  cases r <;> simp [getArray, hB, hL]

/-- C21: for an in-bounds range, `setArray(A, Offset, Length, r)` followed by
`getArray(B, Offset, Length, r2)` succeeds; the `Length` bytes of `B` are those
of `A` when `r = r2` and those of `A` in reverse order otherwise, the rest of
`B` keeps its content, and the region outside `[Offset, Offset + Length)` and
every other field of the memory are unchanged. -/
theorem setArray_getArray (m : MemoryInstance) (A B : Nat → Byte) (Offset Length : Nat)
    (r r2 : Bool) (hB : checkAccessBound m Offset Length = true) :
    ∃ m' B', setArray m A Offset Length r = .ok m' ∧
      getArray m' B Offset Length r2 = .ok B' ∧
      (∀ i, i < Length → B' i = if r = r2 then A i else A (Length - 1 - i)) ∧
      (∀ i, Length ≤ i → B' i = B i) ∧
      (∀ j, ¬ (Offset ≤ j ∧ j < Offset + Length) → m'.Data j = m.Data j) ∧
      m' = { m with Data := m'.Data } := by
  by_cases hL : Length > 0
  · refine ⟨_, _, setArray_ok m A Offset Length r hB hL,
      getArray_ok _ B Offset Length r2 hB hL, ?_, ?_, ?_, rfl⟩
    · intro i hi
      have h1 : Offset ≤ Offset + i ∧ Offset + i < Offset + Length := ⟨by omega, by omega⟩
      have h2 : Offset ≤ Offset + (Length - 1 - i) ∧
          Offset + (Length - 1 - i) < Offset + Length := ⟨by omega, by omega⟩
      have e1 : Offset + i - Offset = i := by omega
      have e2 : Offset + (Length - 1 - i) - Offset = Length - 1 - i := by omega
      have e3 : Length - 1 - (Length - 1 - i) = i := by omega
      cases r <;> cases r2 <;> simp [hi, h1, h2, e1, e2, e3]
    · intro i hi
      have : ¬ i < Length := by omega
      simp only [this, if_false]
    · intro j hj
      simp only [hj, if_false]
  · have h0 : Length = 0 := by omega
    subst h0
    refine ⟨m, B, by simp [setArray, hB], by simp [getArray, hB],
      fun i hi => absurd hi (Nat.not_lt_zero i), fun _ _ => rfl, fun _ _ => rfl, rfl⟩

/-- C21 evaluated: `1, 2, 3` written reversed at the end of a one-page memory
and read back forwards gives `3, 2, 1`. -/
theorem setArray_getArray_witness :
    checkAccessBound mem1 65533 3 = true ∧
    ∃ m' B', setArray mem1 countArr 65533 3 true = .ok m' ∧
      getArray m' zeroData 65533 3 false = .ok B' ∧
      B' 0 = 3 ∧ B' 1 = 2 ∧ B' 2 = 1 ∧ B' 3 = 0 ∧ m'.Data 65532 = 0 := by
  obtain ⟨m', B', h1, h2, h3, h4, h5, _⟩ :=
    setArray_getArray mem1 countArr zeroData 65533 3 true false (by decide)
  refine ⟨by decide, m', B', h1, h2, ?_, ?_, ?_, ?_, ?_⟩
  · rw [h3 0 (by decide)]; decide
  · rw [h3 1 (by decide)]; decide
  · rw [h3 2 (by decide)]; decide
  · rw [h4 3 (by decide)]; rfl
  · rw [h5 65532 (by decide)]; rfl

/-! ## setBytes followed by getBytes -/

/-- C22 at the failing input: in a memory of 65536 pages `setBytes` with a
two-byte slice, `Offset = 0`, `Start = 1` and `Length = 0xFFFFFFFF` returns
success, yet the slice has no element `Start + 1`, so the region cannot hold
`Slice[Start .. Start + Length - 1]` afterwards. -/
theorem setBytes_copies_past_slice :
    (∃ m', setBytes mem64k [1, 2] 0 1 4294967295 = .ok m') ∧
    (1 : Nat) < 4294967295 ∧
    ([1, 2] : List Byte)[1 + 1]? = none :=
  ⟨⟨_, rfl⟩, by decide, rfl⟩

/-- When the 32-bit sum `Start + Length` does not wrap, a successful `setBytes`
has copied `Slice[Start .. Start + Length - 1]` to the region at `Offset`, has
left every other byte alone, and `getBytes(Offset, Length)` succeeds with the
span of those bytes. -/
theorem setBytes_copies_of_no_wrap (m m' : MemoryInstance) (Slice : List Byte)
    (Offset Start Length : Nat) (hw : Start + Length < U32)
    (h : setBytes m Slice Offset Start Length = .ok m') :
    Start + Length ≤ Slice.length ∧
    (∀ k, k < Length → m'.Data (Offset + k) = Slice.getD (Start + k) 0) ∧
    (∀ j, ¬ (Offset ≤ j ∧ j < Offset + Length) → m'.Data j = m.Data j) ∧
    getBytes m' Offset Length = .ok ⟨Offset, Length⟩ := by
  have hmod : (Start + Length) % U32 = Start + Length := Nat.mod_eq_of_lt hw
  unfold setBytes at h
  rw [hmod] at h
  cases hb : checkAccessBound m Offset Length with
  | false => simp [hb] at h
  | true =>
    simp only [hb, Bool.not_true, Bool.false_eq_true, if_false] at h
    by_cases hsrc : ((decide (Slice.length > 0) && decide (Start ≥ Slice.length)) ||
        decide (Start + Length > Slice.length)) = true
    · simp [hsrc] at h
    · rw [if_neg hsrc] at h
      have hle : Start + Length ≤ Slice.length := by
        simp only [Bool.or_eq_true, Bool.and_eq_true, decide_eq_true_eq, not_or] at hsrc
        omega
      by_cases hL : Length > 0
      · rw [if_pos hL] at h
        injection h with h
        subst h
        refine ⟨hle, ?_, ?_, ?_⟩
        · intro k hk
          have c : Offset ≤ Offset + k ∧ Offset + k < Offset + Length := ⟨by omega, by omega⟩
          have e : Offset + k - Offset = k := by omega
          simp only [c, and_self, if_true, e]
        · intro j hj
          simp only [hj, if_false]
        · unfold getBytes
          rw [checkAccessBound_data, hb]
          rfl
      · rw [if_neg hL] at h
        injection h with h
        subst h
        refine ⟨hle, ?_, fun _ _ => rfl, ?_⟩
        · intro k hk; omega
        · unfold getBytes
          rw [hb]
          rfl

/-! ## Bytes read by loadValue -/

/-- C23 at the failing input: `loadValue<float>` with `Length = 1` on a one-page
memory returns success and copies `sizeof(float) = 4` bytes.  At `Offset = 0`
it reads index `1`, outside the approved range `[0, 1)`; at `Offset = 65535` it
reads index `65536`, outside the committed `65536` bytes. -/
theorem loadValue_float_reads_past :
    (∃ v, loadValue mem1 .f32 0 0 1 = .ok v) ∧
    1 ∈ loadValueReads mem1 .f32 0 1 ∧
    ¬ (1 < 0 + 1) ∧
    checkAccessBound mem1 65535 1 = true ∧
    65536 ∈ loadValueReads mem1 .f32 65535 1 ∧
    ¬ (65536 < mem1.CurrPage * 65536) := by
  have e0 : loadValueReads mem1 .f32 0 1 = List.range' 0 4 := rfl
  have e1 : loadValueReads mem1 .f32 65535 1 = List.range' 65535 4 := rfl
  exact ⟨⟨_, rfl⟩, by rw [e0, List.mem_range'_1]; decide, by decide, by decide,
    by rw [e1, List.mem_range'_1]; decide, by decide⟩

/-- For the integer types every index `loadValue` reads lies in the approved
range `[Offset, Offset + Length)` and below `CurrPage * 65536`. -/
theorem loadValueReads_int (m : MemoryInstance) (T : WasmType) (Offset Length : Nat)
    (hT : T.isFloat = false) (hO : Offset < U32) (hL : Length < U32) (hC : m.CurrPage < U32) :
    ∀ i ∈ loadValueReads m T Offset Length,
      Offset ≤ i ∧ i < Offset + Length ∧ i < m.CurrPage * 65536 := by
  intro i hi
  unfold loadValueReads at hi
  rw [checkAccessBound_eq_decide m Offset Length hO hL hC, hT] at hi
  by_cases h1 : Length > T.sizeof
  · simp [h1] at hi
  · by_cases h2 : Offset + Length ≤ m.CurrPage * 65536
    · by_cases h3 : Length > 0
      · simp only [h1, h2, h3, if_false, if_true, decide_True, Bool.not_true,
          Bool.false_eq_true] at hi
        rw [List.mem_range'_1] at hi
        omega
      · simp [h1, h2, h3] at hi
    · simp [h1, h2] at hi

end SSVM
